import Mathlib

/-!
Verification of the cryptographic core of the CryptographyTeam8 repository:
the Serpent block cipher with its key schedule and PKCS#7 file mode
(src/modules/serpent.cpp) and the textbook RSA primitive (src/modules/rsa.cpp).

The embedding is shallow: 32-bit machine words are naturals reduced modulo
2 ^ 32 where the C code overflows, byte buffers are lists of naturals below
256, and arbitrary-precision integers (mpz_class) are naturals.  The PRNG of
rsa.cpp is modelled by an explicit stream of draw values; unbounded C loops
carry explicit fuel and a function that can fail returns an Option.
-/

set_option maxRecDepth 4000

/-! ### The ROL / ROR macros of serpent.cpp (32-bit rotations) -/

def rol32 (x n : Nat) : Nat := ((x <<< n) ||| (x >>> (32 - n))) % 2 ^ 32

def ror32 (x n : Nat) : Nat := ((x >>> n) ||| (x <<< (32 - n))) % 2 ^ 32

theorem testBit_ge32 {x i : Nat} (hx : x < 2 ^ 32) (hi : 32 ≤ i) : x.testBit i = false :=
  Nat.testBit_lt_two_pow (lt_of_lt_of_le hx (Nat.pow_le_pow_right (by norm_num) hi))

theorem lt_two_pow_32_of_testBit {x : Nat} (h : ∀ i, 32 ≤ i → x.testBit i = false) :
    x < 2 ^ 32 := by
  have hx : x = x % 2 ^ 32 := by
    refine Nat.eq_of_testBit_eq fun i => ?_
    rw [Nat.testBit_mod_two_pow]
    by_cases hi : i < 32
    · simp [hi]
    · simp [hi, h i (by omega)]
  rw [hx]
  exact Nat.mod_lt _ (by norm_num)

theorem rol32_lt (x n : Nat) : rol32 x n < 2 ^ 32 := Nat.mod_lt _ (by norm_num)

theorem ror32_lt (x n : Nat) : ror32 x n < 2 ^ 32 := Nat.mod_lt _ (by norm_num)

theorem rol32_testBit (x n i : Nat) (hx : x < 2 ^ 32) (hn : n < 32) (hi : i < 32) :
    (rol32 x n).testBit i =
      if n ≤ i then x.testBit (i - n) else x.testBit (32 - n + i) := by
  unfold rol32
  rw [Nat.testBit_mod_two_pow, Nat.testBit_lor, Nat.testBit_shiftLeft,
    Nat.testBit_shiftRight, decide_eq_true hi, Bool.true_and]
  by_cases h : n ≤ i
  · have h32 : 32 ≤ 32 - n + i := by omega
    rw [testBit_ge32 hx h32, Bool.or_false, if_pos h,
      decide_eq_true (show i ≥ n from h), Bool.true_and]
  · rw [decide_eq_false (show ¬ i ≥ n from h), Bool.false_and, Bool.false_or, if_neg h]

theorem ror32_testBit (x n i : Nat) (hx : x < 2 ^ 32) (hn : n < 32) (hi : i < 32) :
    (ror32 x n).testBit i =
      if i < 32 - n then x.testBit (n + i) else x.testBit (i - (32 - n)) := by
  unfold ror32
  rw [Nat.testBit_mod_two_pow, Nat.testBit_lor, Nat.testBit_shiftLeft,
    Nat.testBit_shiftRight, decide_eq_true hi, Bool.true_and]
  by_cases h : i < 32 - n
  · rw [decide_eq_false (show ¬ i ≥ 32 - n by omega), Bool.false_and, Bool.or_false,
      if_pos h]
  · have h2 : 32 ≤ n + i := by omega
    rw [testBit_ge32 hx h2, Bool.false_or, if_neg h,
      decide_eq_true (show i ≥ 32 - n by omega), Bool.true_and]

theorem ror32_rol32 {x : Nat} (n : Nat) (hx : x < 2 ^ 32) (hn : n < 32) :
    ror32 (rol32 x n) n = x := by
  refine Nat.eq_of_testBit_eq fun i => ?_
  by_cases hi : i < 32
  · rw [ror32_testBit _ _ _ (rol32_lt x n) hn hi]
    by_cases h : i < 32 - n
    · rw [if_pos h, rol32_testBit _ _ _ hx hn (by omega), if_pos (by omega)]
      congr 1
      omega
    · rw [if_neg h, rol32_testBit _ _ _ hx hn (by omega), if_neg (by omega)]
      congr 1
      omega
  · rw [testBit_ge32 (ror32_lt _ _) (by omega), testBit_ge32 hx (by omega)]

/-! ### Blocks: four 32-bit words (uint32_t X[4] in serpent.cpp) -/

structure W4 where
  x0 : Nat
  x1 : Nat
  x2 : Nat
  x3 : Nat
deriving DecidableEq, Repr

def W4.word (X : W4) : Nat → Nat
  | 0 => X.x0
  | 1 => X.x1
  | 2 => X.x2
  | 3 => X.x3
  | _ + 4 => 0

def W4.orBit (X : W4) (wi bi : Nat) : W4 :=
  match wi with
  | 0 => ⟨X.x0 ||| 1 <<< bi, X.x1, X.x2, X.x3⟩
  | 1 => ⟨X.x0, X.x1 ||| 1 <<< bi, X.x2, X.x3⟩
  | 2 => ⟨X.x0, X.x1, X.x2 ||| 1 <<< bi, X.x3⟩
  | 3 => ⟨X.x0, X.x1, X.x2, X.x3 ||| 1 <<< bi⟩
  | _ + 4 => X

def W4.Bounded (X : W4) : Prop :=
  X.x0 < 2 ^ 32 ∧ X.x1 < 2 ^ 32 ∧ X.x2 < 2 ^ 32 ∧ X.x3 < 2 ^ 32

instance (X : W4) : Decidable X.Bounded := by unfold W4.Bounded; infer_instance

theorem W4.eq_of_word_eq {X Y : W4} (h : ∀ j, j < 4 → X.word j = Y.word j) : X = Y := by
  cases X; cases Y
  have h0 := h 0 (by omega)
  have h1 := h 1 (by omega)
  have h2 := h 2 (by omega)
  have h3 := h 3 (by omega)
  simp only [W4.word] at h0 h1 h2 h3
  simp [h0, h1, h2, h3]

theorem W4.bounded_iff_word {X : W4} : X.Bounded ↔ ∀ j, j < 4 → X.word j < 2 ^ 32 := by
  obtain ⟨a, b, c, d⟩ := X
  constructor
  · rintro ⟨h0, h1, h2, h3⟩ j hj
    interval_cases j <;> simpa [W4.word]
  · intro h
    exact ⟨h 0 (by omega), h 1 (by omega), h 2 (by omega), h 3 (by omega)⟩

theorem W4.word_orBit (X : W4) (w b j : Nat) (hj : j < 4) :
    (X.orBit w b).word j = if j = w then X.word j ||| 1 <<< b else X.word j := by
  rcases w with _ | _ | _ | _ | w <;> interval_cases j <;>
    simp [W4.orBit, W4.word]

/-! ### Serpent::transpose and Serpent::inverseTranspose

The C code walks all 128 bit positions i; `transpose` reads bit i % 32 of
word i / 32 and writes bit i / 4 of word i % 4, `inverseTranspose` reads bit
i / 4 of word i % 4 and writes bit i % 32 of word i / 32. -/

def transposeAux (d : W4) : Nat → W4
  | 0 => ⟨0, 0, 0, 0⟩
  | i + 1 =>
    let out := transposeAux d i
    if (d.word (i / 32)).testBit (i % 32) then out.orBit (i % 4) (i / 4) else out

def transpose (d : W4) : W4 := transposeAux d 128

def invTransposeAux (d : W4) : Nat → W4
  | 0 => ⟨0, 0, 0, 0⟩
  | i + 1 =>
    let out := invTransposeAux d i
    if (d.word (i % 4)).testBit (i / 4) then out.orBit (i / 32) (i % 32) else out

def inverseTranspose (d : W4) : W4 := invTransposeAux d 128

theorem transposeAux_testBit (d : W4) (n : Nat) (hn : n ≤ 128) (j b : Nat) (hj : j < 4) :
    ((transposeAux d n).word j).testBit b =
      (decide (4 * b + j < n) && (d.word ((4 * b + j) / 32)).testBit ((4 * b + j) % 32)) := by
  induction n with
  | zero => interval_cases j <;> simp [transposeAux, W4.word]
  | succ n ih =>
    have ihn := ih (by omega)
    show ((if (d.word (n / 32)).testBit (n % 32) then
        (transposeAux d n).orBit (n % 4) (n / 4) else transposeAux d n).word j).testBit b = _
    cases hset : (d.word (n / 32)).testBit (n % 32) with
    | true =>
      rw [if_pos rfl, W4.word_orBit _ _ _ _ hj]
      by_cases heq : 4 * b + j = n
      · have hj4 : j = n % 4 := by omega
        rw [if_pos hj4, Nat.testBit_lor, ihn, Nat.one_shiftLeft, Nat.testBit_two_pow,
          decide_eq_false (show ¬ (4 * b + j < n) by omega), Bool.false_and,
          Bool.false_or, decide_eq_true (show n / 4 = b by omega),
          decide_eq_true (show 4 * b + j < n + 1 by omega), Bool.true_and,
          show (4 * b + j) / 32 = n / 32 by omega, show (4 * b + j) % 32 = n % 32 by omega,
          hset]
      · by_cases hj4 : j = n % 4
        · rw [if_pos hj4, Nat.testBit_lor, ihn, Nat.one_shiftLeft, Nat.testBit_two_pow,
            decide_eq_false (show ¬ (n / 4 = b) by omega), Bool.or_false]
          congr 1
          simp only [decide_eq_decide]
          omega
        · rw [if_neg hj4, ihn]
          congr 1
          simp only [decide_eq_decide]
          omega
    | false =>
      rw [if_neg (by simp), ihn]
      by_cases heq : 4 * b + j = n
      · rw [show (4 * b + j) / 32 = n / 32 by omega, show (4 * b + j) % 32 = n % 32 by omega,
          hset, Bool.and_false, Bool.and_false]
      · congr 1
        simp only [decide_eq_decide]
        omega

theorem invTransposeAux_testBit (d : W4) (n : Nat) (hn : n ≤ 128) (j b : Nat) (hj : j < 4) :
    ((invTransposeAux d n).word j).testBit b =
      (decide (b < 32 ∧ 32 * j + b < n) &&
        (d.word ((32 * j + b) % 4)).testBit ((32 * j + b) / 4)) := by
  induction n with
  | zero => interval_cases j <;> simp [invTransposeAux, W4.word]
  | succ n ih =>
    have ihn := ih (by omega)
    show ((if (d.word (n % 4)).testBit (n / 4) then
        (invTransposeAux d n).orBit (n / 32) (n % 32) else invTransposeAux d n).word j).testBit b = _
    cases hset : (d.word (n % 4)).testBit (n / 4) with
    | true =>
      rw [if_pos rfl, W4.word_orBit _ _ _ _ hj]
      by_cases heq : b < 32 ∧ 32 * j + b = n
      · obtain ⟨hb32, heq⟩ := heq
        have hj4 : j = n / 32 := by omega
        rw [if_pos hj4, Nat.testBit_lor, ihn, Nat.one_shiftLeft, Nat.testBit_two_pow,
          decide_eq_false (show ¬ (b < 32 ∧ 32 * j + b < n) by omega), Bool.false_and,
          Bool.false_or, decide_eq_true (show n % 32 = b by omega),
          decide_eq_true (show b < 32 ∧ 32 * j + b < n + 1 by omega), Bool.true_and,
          show (32 * j + b) % 4 = n % 4 by omega, show (32 * j + b) / 4 = n / 4 by omega,
          hset]
      · by_cases hj4 : j = n / 32
        · rw [if_pos hj4, Nat.testBit_lor, ihn, Nat.one_shiftLeft, Nat.testBit_two_pow,
            decide_eq_false (show ¬ (n % 32 = b) by omega), Bool.or_false]
          congr 1
          simp only [decide_eq_decide]
          omega
        · rw [if_neg hj4, ihn]
          congr 1
          simp only [decide_eq_decide]
          omega
    | false =>
      rw [if_neg (by simp), ihn]
      by_cases heq : b < 32 ∧ 32 * j + b = n
      · rw [show (32 * j + b) % 4 = n % 4 by omega, show (32 * j + b) / 4 = n / 4 by omega,
          hset, Bool.and_false, Bool.and_false]
      · congr 1
        simp only [decide_eq_decide]
        omega

theorem transpose_bounded (d : W4) : (transpose d).Bounded := by
  rw [W4.bounded_iff_word]
  intro j hj
  refine lt_two_pow_32_of_testBit fun i hi => ?_
  rw [transpose, transposeAux_testBit d 128 (by omega) j i hj]
  have : ¬ (4 * i + j < 128) := by omega
  simp [this]

theorem inverseTranspose_bounded (d : W4) : (inverseTranspose d).Bounded := by
  rw [W4.bounded_iff_word]
  intro j hj
  refine lt_two_pow_32_of_testBit fun i hi => ?_
  rw [inverseTranspose, invTransposeAux_testBit d 128 (by omega) j i hj]
  have : ¬ (i < 32) := by omega
  simp [this]

theorem inverseTranspose_transpose {d : W4} (hd : d.Bounded) :
    inverseTranspose (transpose d) = d := by
  refine W4.eq_of_word_eq fun j hj => ?_
  refine Nat.eq_of_testBit_eq fun b => ?_
  rw [inverseTranspose, invTransposeAux_testBit _ 128 (by omega) j b hj]
  by_cases hb : b < 32
  · have h128 : 32 * j + b < 128 := by omega
    have hw4 : (32 * j + b) % 4 < 4 := by omega
    rw [transpose, transposeAux_testBit _ 128 (by omega) _ _ hw4]
    have he : 4 * ((32 * j + b) / 4) + (32 * j + b) % 4 = 32 * j + b := by omega
    rw [he]
    have h1 : (32 * j + b) / 32 = j := by omega
    have h2 : (32 * j + b) % 32 = b := by omega
    simp [hb, h128, h1, h2]
  · have hw := (W4.bounded_iff_word.mp hd) j hj
    rw [decide_eq_false (show ¬ (b < 32 ∧ 32 * j + b < 128) by omega), Bool.false_and,
      testBit_ge32 hw (by omega)]

theorem transpose_inverseTranspose {d : W4} (hd : d.Bounded) :
    transpose (inverseTranspose d) = d := by
  refine W4.eq_of_word_eq fun j hj => ?_
  refine Nat.eq_of_testBit_eq fun b => ?_
  rw [transpose, transposeAux_testBit _ 128 (by omega) j b hj]
  by_cases hb : b < 32
  · have h128 : 4 * b + j < 128 := by omega
    have hw4 : (4 * b + j) / 32 < 4 := by omega
    rw [inverseTranspose, invTransposeAux_testBit _ 128 (by omega) _ _ hw4]
    have he : 32 * ((4 * b + j) / 32) + (4 * b + j) % 32 = 4 * b + j := by omega
    rw [he]
    have h1 : (4 * b + j) % 4 = j := by omega
    have h2 : (4 * b + j) / 4 = b := by omega
    have h3 : (4 * b + j) % 32 < 32 := by omega
    simp [h128, h1, h2, h3]
  · have hw := (W4.bounded_iff_word.mp hd) j hj
    rw [decide_eq_false (show ¬ (4 * b + j < 128) by omega), Bool.false_and,
      testBit_ge32 hw (by omega)]

/-! ### S-box tables (SBOX / INV_SBOX in serpent.cpp) and their bitsliced
application (Serpent::applySBox / Serpent::applyInverseSBox).

The C code walks the 32 bit positions i, assembles the nibble from bit i of
the four words, looks the nibble up in the table and writes the four output
bits back at position i. -/

def SBOX : List (List Nat) :=
  [[3, 8, 15, 1, 10, 6, 5, 11, 14, 13, 4, 2, 7, 0, 9, 12],
   [15, 12, 2, 7, 9, 0, 5, 10, 1, 11, 14, 8, 13, 4, 6, 3],
   [8, 6, 7, 9, 3, 12, 10, 15, 13, 1, 14, 4, 0, 11, 5, 2],
   [0, 15, 11, 8, 12, 9, 6, 3, 13, 1, 2, 4, 10, 7, 5, 14],
   [1, 15, 8, 3, 12, 0, 11, 6, 2, 5, 4, 10, 9, 14, 7, 13],
   [15, 5, 2, 11, 4, 10, 9, 12, 0, 3, 14, 8, 13, 6, 7, 1],
   [7, 2, 12, 5, 8, 4, 6, 11, 14, 9, 1, 15, 13, 3, 10, 0],
   [1, 13, 15, 0, 14, 8, 2, 11, 7, 4, 12, 10, 9, 3, 5, 6]]

def INV_SBOX : List (List Nat) :=
  [[13, 3, 11, 0, 10, 6, 5, 12, 1, 14, 4, 7, 15, 9, 8, 2],
   [5, 8, 2, 15, 13, 6, 14, 3, 11, 4, 7, 9, 1, 12, 10, 0],
   [12, 9, 15, 4, 11, 14, 1, 2, 0, 3, 6, 13, 5, 8, 10, 7],
   [0, 9, 10, 7, 11, 14, 6, 13, 3, 5, 12, 2, 4, 8, 15, 1],
   [5, 0, 8, 3, 10, 9, 7, 14, 2, 12, 11, 6, 4, 15, 13, 1],
   [8, 15, 2, 9, 4, 1, 13, 14, 11, 6, 5, 3, 7, 12, 10, 0],
   [15, 10, 1, 13, 5, 3, 6, 0, 4, 9, 14, 7, 2, 12, 8, 11],
   [3, 0, 6, 13, 9, 14, 15, 8, 5, 12, 11, 7, 10, 1, 4, 2]]

def sboxVal (t : List (List Nat)) (box v : Nat) : Nat := (t.getD box []).getD v 0

def nibbleAt (X : W4) (i : Nat) : Nat :=
  (if (X.word 0).testBit i then 1 else 0) |||
  (if (X.word 1).testBit i then 2 else 0) |||
  (if (X.word 2).testBit i then 4 else 0) |||
  (if (X.word 3).testBit i then 8 else 0)

def writeNibble (Y : W4) (out i : Nat) : W4 :=
  let Y := if out.testBit 0 then ⟨Y.x0 ||| 1 <<< i, Y.x1, Y.x2, Y.x3⟩ else Y
  let Y := if out.testBit 1 then ⟨Y.x0, Y.x1 ||| 1 <<< i, Y.x2, Y.x3⟩ else Y
  let Y := if out.testBit 2 then ⟨Y.x0, Y.x1, Y.x2 ||| 1 <<< i, Y.x3⟩ else Y
  if out.testBit 3 then ⟨Y.x0, Y.x1, Y.x2, Y.x3 ||| 1 <<< i⟩ else Y

def sboxAux (t : List (List Nat)) (box : Nat) (X : W4) : Nat → W4
  | 0 => ⟨0, 0, 0, 0⟩
  | i + 1 => writeNibble (sboxAux t box X i) (sboxVal t box (nibbleAt X i)) i

def applySBox (round : Nat) (X : W4) : W4 := sboxAux SBOX (round % 8) X 32

def applyInverseSBox (round : Nat) (X : W4) : W4 := sboxAux INV_SBOX (round % 8) X 32

theorem writeNibble_word (Y : W4) (out i j : Nat) (hj : j < 4) :
    (writeNibble Y out i).word j =
      if out.testBit j then Y.word j ||| 1 <<< i else Y.word j := by
  cases h0 : out.testBit 0 <;> cases h1 : out.testBit 1 <;>
    cases h2 : out.testBit 2 <;> cases h3 : out.testBit 3 <;>
    interval_cases j <;> simp [writeNibble, W4.word, h0, h1, h2, h3]

theorem sboxAux_testBit (t : List (List Nat)) (box : Nat) (X : W4) (n : Nat)
    (hn : n ≤ 32) (j b : Nat) (hj : j < 4) :
    ((sboxAux t box X n).word j).testBit b =
      (decide (b < n) && (sboxVal t box (nibbleAt X b)).testBit j) := by
  induction n with
  | zero => interval_cases j <;> simp [sboxAux, W4.word]
  | succ n ih =>
    have ihn := ih (by omega)
    show ((writeNibble (sboxAux t box X n) (sboxVal t box (nibbleAt X n)) n).word j).testBit b = _
    rw [writeNibble_word _ _ _ _ hj]
    cases hset : (sboxVal t box (nibbleAt X n)).testBit j with
    | true =>
      rw [if_pos rfl, Nat.testBit_lor, ihn, Nat.one_shiftLeft, Nat.testBit_two_pow]
      by_cases heq : b = n
      · rw [decide_eq_false (show ¬ (b < n) by omega), Bool.false_and, Bool.false_or,
          decide_eq_true (show n = b by omega), heq,
          decide_eq_true (show n < n + 1 by omega), Bool.true_and, hset]
      · rw [decide_eq_false (show ¬ (n = b) by omega), Bool.or_false]
        congr 1
        simp only [decide_eq_decide]
        omega
    | false =>
      rw [if_neg (by simp), ihn]
      by_cases heq : b = n
      · rw [heq, hset, Bool.and_false, Bool.and_false]
      · congr 1
        simp only [decide_eq_decide]
        omega

theorem sboxAux_bounded (t : List (List Nat)) (box : Nat) (X : W4) :
    (sboxAux t box X 32).Bounded := by
  rw [W4.bounded_iff_word]
  intro j hj
  refine lt_two_pow_32_of_testBit fun i hi => ?_
  rw [sboxAux_testBit t box X 32 (by omega) j i hj,
    decide_eq_false (show ¬ (i < 32) by omega), Bool.false_and]

theorem applySBox_bounded (r : Nat) (X : W4) : (applySBox r X).Bounded :=
  sboxAux_bounded _ _ _

theorem nibbleAt_lt (X : W4) (i : Nat) : nibbleAt X i < 16 := by
  unfold nibbleAt
  cases h0 : (X.word 0).testBit i <;> cases h1 : (X.word 1).testBit i <;>
    cases h2 : (X.word 2).testBit i <;> cases h3 : (X.word 3).testBit i <;>
    simp [h0, h1, h2, h3]

theorem nibbleAt_testBit (X : W4) (i j : Nat) (hj : j < 4) :
    (nibbleAt X i).testBit j = (X.word j).testBit i := by
  unfold nibbleAt
  cases h0 : (X.word 0).testBit i <;> cases h1 : (X.word 1).testBit i <;>
    cases h2 : (X.word 2).testBit i <;> cases h3 : (X.word 3).testBit i <;>
    interval_cases j <;> simp [h0, h1, h2, h3] <;> decide

theorem nibble_reassemble : ∀ v, v < 16 →
    ((if v.testBit 0 then 1 else 0) ||| (if v.testBit 1 then 2 else 0) |||
     (if v.testBit 2 then 4 else 0) ||| (if v.testBit 3 then 8 else 0)) = v := by
  decide

theorem sboxVal_lt : ∀ box, box < 8 → ∀ v, v < 16 → sboxVal SBOX box v < 16 := by
  decide

theorem invSBox_sboxVal : ∀ box, box < 8 → ∀ v, v < 16 →
    sboxVal INV_SBOX box (sboxVal SBOX box v) = v := by
  decide

theorem nibbleAt_applySBox (r : Nat) (X : W4) (b : Nat) (hb : b < 32) :
    nibbleAt (applySBox r X) b = sboxVal SBOX (r % 8) (nibbleAt X b) := by
  have hchar : ∀ j, j < 4 → ((applySBox r X).word j).testBit b =
      (sboxVal SBOX (r % 8) (nibbleAt X b)).testBit j := by
    intro j hj
    rw [applySBox, sboxAux_testBit _ _ _ 32 (by omega) j b hj,
      decide_eq_true hb, Bool.true_and]
  unfold nibbleAt
  rw [hchar 0 (by omega), hchar 1 (by omega), hchar 2 (by omega), hchar 3 (by omega)]
  exact nibble_reassemble _ (sboxVal_lt _ (Nat.mod_lt _ (by omega)) _ (nibbleAt_lt X b))

theorem applyInverseSBox_applySBox (r : Nat) {X : W4} (hX : X.Bounded) :
    applyInverseSBox r (applySBox r X) = X := by
  refine W4.eq_of_word_eq fun j hj => ?_
  refine Nat.eq_of_testBit_eq fun b => ?_
  rw [applyInverseSBox, sboxAux_testBit _ _ _ 32 (by omega) j b hj]
  by_cases hb : b < 32
  · rw [decide_eq_true hb, Bool.true_and, nibbleAt_applySBox r X b hb,
      invSBox_sboxVal _ (Nat.mod_lt _ (by omega)) _ (nibbleAt_lt X b),
      nibbleAt_testBit _ _ _ hj]
  · rw [decide_eq_false hb, Bool.false_and,
      testBit_ge32 ((W4.bounded_iff_word.mp hX) j hj) (by omega)]

/-! ### Key mixing: the componentwise XOR of a block with a round key -/

def W4.xorW (X K : W4) : W4 :=
  ⟨X.x0 ^^^ K.x0, X.x1 ^^^ K.x1, X.x2 ^^^ K.x2, X.x3 ^^^ K.x3⟩

theorem W4.xorW_cancel (X K : W4) : (X.xorW K).xorW K = X := by
  cases X; cases K
  simp [W4.xorW, Nat.xor_cancel_right]

theorem W4.xorW_bounded {X K : W4} (hX : X.Bounded) (hK : K.Bounded) :
    (X.xorW K).Bounded := by
  obtain ⟨a0, a1, a2, a3⟩ := hX
  obtain ⟨b0, b1, b2, b3⟩ := hK
  exact ⟨Nat.xor_lt_two_pow a0 b0, Nat.xor_lt_two_pow a1 b1,
    Nat.xor_lt_two_pow a2 b2, Nat.xor_lt_two_pow a3 b3⟩

/-! ### Serpent::linearTransform and its inverse

Straight-line translation of the C sequence; `<<<` shifts are reduced
modulo 2 ^ 32 exactly where uint32_t arithmetic truncates. -/

theorem mod_two_pow_32_lt (x : Nat) : x % 2 ^ 32 < 2 ^ 32 := Nat.mod_lt _ (by norm_num)

def linearTransform (X : W4) : W4 :=
  let x0 := rol32 X.x0 13
  let x2 := rol32 X.x2 3
  let x1 := X.x1 ^^^ x0 ^^^ x2
  let x3 := X.x3 ^^^ x2 ^^^ ((x0 <<< 3) % 2 ^ 32)
  let x1 := rol32 x1 1
  let x3 := rol32 x3 7
  let x0 := x0 ^^^ x1 ^^^ x3
  let x2 := x2 ^^^ x3 ^^^ ((x1 <<< 7) % 2 ^ 32)
  let x0 := rol32 x0 5
  let x2 := rol32 x2 22
  ⟨x0, x1, x2, x3⟩

def inverseLinearTransform (X : W4) : W4 :=
  let x2 := ror32 X.x2 22
  let x0 := ror32 X.x0 5
  let x2 := x2 ^^^ X.x3 ^^^ ((X.x1 <<< 7) % 2 ^ 32)
  let x0 := x0 ^^^ X.x1 ^^^ X.x3
  let x3 := ror32 X.x3 7
  let x1 := ror32 X.x1 1
  let x3 := x3 ^^^ x2 ^^^ ((x0 <<< 3) % 2 ^ 32)
  let x1 := x1 ^^^ x0 ^^^ x2
  let x2 := ror32 x2 3
  let x0 := ror32 x0 13
  ⟨x0, x1, x2, x3⟩

theorem linearTransform_bounded (X : W4) : (linearTransform X).Bounded :=
  ⟨rol32_lt _ _, rol32_lt _ _, rol32_lt _ _, rol32_lt _ _⟩

theorem inverseLinearTransform_linearTransform {X : W4} (hX : X.Bounded) :
    inverseLinearTransform (linearTransform X) = X := by
  obtain ⟨X0, X1, X2, X3⟩ := X
  obtain ⟨h0, h1, h2, h3⟩ := hX
  simp only [linearTransform, inverseLinearTransform]
  rw [ror32_rol32 22 (Nat.xor_lt_two_pow (Nat.xor_lt_two_pow (rol32_lt _ _) (rol32_lt _ _))
      (mod_two_pow_32_lt _)) (by omega),
    ror32_rol32 5 (Nat.xor_lt_two_pow (Nat.xor_lt_two_pow (rol32_lt _ _) (rol32_lt _ _))
      (rol32_lt _ _)) (by omega),
    ror32_rol32 7 (Nat.xor_lt_two_pow (Nat.xor_lt_two_pow h3 (rol32_lt _ _))
      (mod_two_pow_32_lt _)) (by omega),
    ror32_rol32 1 (Nat.xor_lt_two_pow (Nat.xor_lt_two_pow h1 (rol32_lt _ _))
      (rol32_lt _ _)) (by omega)]
  have hg2 : ∀ a b c : Nat, a ^^^ b ^^^ c ^^^ b ^^^ c = a := by
    intro a b c
    rw [Nat.xor_assoc (a ^^^ b), Nat.xor_comm c b, ← Nat.xor_assoc (a ^^^ b),
      Nat.xor_cancel_right, Nat.xor_cancel_right]
  rw [hg2, hg2]
  rw [ror32_rol32 3 h2 (by omega), ror32_rol32 13 h0 (by omega), hg2, hg2]

/-! ### Serpent::keySchedule

The 32 key bytes become eight little-endian words w[0..7]; the array is
expanded to w[139] with the golden-ratio recurrence, and each of the 33
subkeys is the bitsliced S-box image of a quadruple of prekeys.  `wTab key n`
is the list [w (n-1), ..., w 0]. -/

def phi : Nat := 0x9e3779b9

def keyWord (key : List Nat) (i : Nat) : Nat :=
  key.getD (i * 4) 0 ||| (key.getD (i * 4 + 1) 0 <<< 8) |||
  (key.getD (i * 4 + 2) 0 <<< 16) ||| (key.getD (i * 4 + 3) 0 <<< 24)

def wTab (key : List Nat) : Nat → List Nat
  | 0 => []
  | n + 1 =>
    let prev := wTab key n
    let wn := if n < 8 then keyWord key n
      else rol32 (prev.getD 7 0 ^^^ prev.getD 4 0 ^^^ prev.getD 2 0 ^^^ prev.getD 0 0 ^^^
        phi ^^^ (n - 8)) 11
    wn :: prev

def wWord (key : List Nat) (i : Nat) : Nat := (wTab key (i + 1)).getD 0 0

def sboxIndex (i : Nat) : Nat := (8 + 3 - i % 8) % 8

def keySchedule (key : List Nat) (i : Nat) : W4 :=
  applySBox (sboxIndex i)
    ⟨wWord key (4 * i + 8), wWord key (4 * i + 9),
     wWord key (4 * i + 10), wWord key (4 * i + 11)⟩

theorem keySchedule_bounded (key : List Nat) (i : Nat) : (keySchedule key i).Bounded :=
  applySBox_bounded _ _

theorem wTab_getD (key : List Nat) :
    ∀ n k, k < n → (wTab key n).getD k 0 = wWord key (n - 1 - k) := by
  intro n
  induction n with
  | zero => omega
  | succ n ih =>
    intro k hk
    cases k with
    | zero =>
      show (wTab key (n + 1)).getD 0 0 = wWord key (n + 1 - 1 - 0)
      rw [show n + 1 - 1 - 0 = n by omega]
      rfl
    | succ k =>
      show ((wTab key (n + 1)).getD (k + 1) 0) = _
      rw [wTab]
      show (wTab key n).getD k 0 = wWord key (n + 1 - 1 - (k + 1))
      rw [ih k (by omega), show n + 1 - 1 - (k + 1) = n - 1 - k by omega]

theorem wWord_lt8 (key : List Nat) (i : Nat) (h : i < 8) : wWord key i = keyWord key i := by
  rw [wWord, wTab]
  show (if i < 8 then keyWord key i else _) = _
  rw [if_pos h]

theorem wWord_ge8 (key : List Nat) (i : Nat) (h8 : 8 ≤ i) :
    wWord key i = rol32 (wWord key (i - 8) ^^^ wWord key (i - 5) ^^^ wWord key (i - 3) ^^^
      wWord key (i - 1) ^^^ phi ^^^ (i - 8)) 11 := by
  rw [wWord, wTab]
  show (if i < 8 then keyWord key i else
      rol32 ((wTab key i).getD 7 0 ^^^ (wTab key i).getD 4 0 ^^^ (wTab key i).getD 2 0 ^^^
        (wTab key i).getD 0 0 ^^^ phi ^^^ (i - 8)) 11) = _
  rw [if_neg (by omega), wTab_getD key i 7 (by omega), wTab_getD key i 4 (by omega),
    wTab_getD key i 2 (by omega), wTab_getD key i 0 (by omega),
    show i - 1 - 7 = i - 8 by omega, show i - 1 - 4 = i - 5 by omega,
    show i - 1 - 2 = i - 3 by omega, show i - 1 - 0 = i - 1 by omega]

/-! ### Serpent::encryptBlock and Serpent::decryptBlock (32 rounds) -/

def encRound (SK : Nat → W4) (r : Nat) (X : W4) : W4 :=
  let X1 := X.xorW (SK r)
  let X2 := applySBox (r % 8) X1
  if r < 31 then linearTransform X2 else X2.xorW (SK 32)

def encIter (SK : Nat → W4) (X : W4) : Nat → W4
  | 0 => X
  | r + 1 => encRound SK r (encIter SK X r)

def encryptBlock (SK : Nat → W4) (input : W4) : W4 :=
  inverseTranspose (encIter SK (transpose input) 32)

def decRound (SK : Nat → W4) (r : Nat) (X : W4) : W4 :=
  let X1 := if r < 31 then inverseLinearTransform X else X
  let X2 := applyInverseSBox (r % 8) X1
  X2.xorW (SK r)

def decFrom (SK : Nat → W4) : Nat → W4 → W4
  | 0, X => decRound SK 0 X
  | r + 1, X => decFrom SK r (decRound SK (r + 1) X)

def decryptBlock (SK : Nat → W4) (input : W4) : W4 :=
  inverseTranspose (decFrom SK 31 ((transpose input).xorW (SK 32)))

theorem encRound_bounded (SK : Nat → W4) (hSK : ∀ i, (SK i).Bounded) (r : Nat) (X : W4) :
    (encRound SK r X).Bounded := by
  unfold encRound
  by_cases h : r < 31
  · rw [if_pos h]
    exact linearTransform_bounded _
  · rw [if_neg h]
    exact W4.xorW_bounded (applySBox_bounded _ _) (hSK 32)

theorem encIter_bounded (SK : Nat → W4) (hSK : ∀ i, (SK i).Bounded) {X : W4}
    (hX : X.Bounded) : ∀ n, (encIter SK X n).Bounded
  | 0 => hX
  | n + 1 => encRound_bounded SK hSK n _

theorem decRound_encRound (SK : Nat → W4) (hSK : ∀ i, (SK i).Bounded) (r : Nat)
    (hr : r ≤ 30) {X : W4} (hX : X.Bounded) : decRound SK r (encRound SK r X) = X := by
  have h31 : r < 31 := by omega
  simp only [encRound, decRound, if_pos h31]
  rw [inverseLinearTransform_linearTransform (applySBox_bounded _ _),
    applyInverseSBox_applySBox _ (W4.xorW_bounded hX (hSK r)), W4.xorW_cancel]

theorem decFrom_encIter (SK : Nat → W4) (hSK : ∀ i, (SK i).Bounded) {X0 : W4}
    (hX0 : X0.Bounded) : ∀ r, r ≤ 30 → decFrom SK r (encIter SK X0 (r + 1)) = X0 := by
  intro r
  induction r with
  | zero =>
    intro _
    show decRound SK 0 (encRound SK 0 (encIter SK X0 0)) = X0
    exact decRound_encRound SK hSK 0 (by omega) hX0
  | succ r ih =>
    intro hr
    show decFrom SK r (decRound SK (r + 1) (encRound SK (r + 1) (encIter SK X0 (r + 1)))) = X0
    rw [decRound_encRound SK hSK (r + 1) (by omega) (encIter_bounded SK hSK hX0 (r + 1))]
    exact ih (by omega)

theorem encIter_succ (SK : Nat → W4) (X : W4) (n : Nat) :
    encIter SK X (n + 1) = encRound SK n (encIter SK X n) := rfl

theorem decFrom_succ (SK : Nat → W4) (r : Nat) (X : W4) :
    decFrom SK (r + 1) X = decFrom SK r (decRound SK (r + 1) X) := rfl

theorem decryptBlock_encryptBlock (SK : Nat → W4) (hSK : ∀ i, (SK i).Bounded)
    {P : W4} (hP : P.Bounded) : decryptBlock SK (encryptBlock SK P) = P := by
  unfold decryptBlock encryptBlock
  rw [transpose_inverseTranspose (encIter_bounded SK hSK (transpose_bounded P) 32)]
  have h32 : encIter SK (transpose P) 32 =
      (applySBox (31 % 8) ((encIter SK (transpose P) 31).xorW (SK 31))).xorW (SK 32) := by
    rw [show (32 : Nat) = 31 + 1 from rfl, encIter_succ]
    simp only [encRound, if_neg (show ¬ (31 < 31) by omega)]
  rw [h32, W4.xorW_cancel]
  have hstep : decFrom SK 31
      (applySBox (31 % 8) ((encIter SK (transpose P) 31).xorW (SK 31))) =
      decFrom SK 30 (decRound SK 31
        (applySBox (31 % 8) ((encIter SK (transpose P) 31).xorW (SK 31)))) :=
    decFrom_succ SK 30 _
  have hd31 : decRound SK 31
      (applySBox (31 % 8) ((encIter SK (transpose P) 31).xorW (SK 31))) =
      encIter SK (transpose P) 31 := by
    simp only [decRound, if_neg (show ¬ (31 < 31) by omega)]
    rw [applyInverseSBox_applySBox _
      (W4.xorW_bounded (encIter_bounded SK hSK (transpose_bounded P) 31) (hSK 31)),
      W4.xorW_cancel]
  rw [hstep, hd31, decFrom_encIter SK hSK (transpose_bounded P) 30 (by omega)]
  exact inverseTranspose_transpose hP

/-! ### Byte packing: 16 bytes to four little-endian words and back

encryptFile / decryptFile pack each 16-byte group little-endian into
uint32_t inputBlock[4] and unpack outputBlock[4] byte by byte. -/

def leWord (bs : List Nat) (off : Nat) : Nat :=
  bs.getD off 0 ||| (bs.getD (off + 1) 0 <<< 8) |||
  (bs.getD (off + 2) 0 <<< 16) ||| (bs.getD (off + 3) 0 <<< 24)

def pack16 (chunk : List Nat) : W4 :=
  ⟨leWord chunk 0, leWord chunk 4, leWord chunk 8, leWord chunk 12⟩

def wordBytes (x : Nat) : List Nat :=
  [x &&& 255, (x >>> 8) &&& 255, (x >>> 16) &&& 255, (x >>> 24) &&& 255]

def w4Bytes (X : W4) : List Nat :=
  wordBytes X.x0 ++ wordBytes X.x1 ++ wordBytes X.x2 ++ wordBytes X.x3

theorem lor_shiftLeft_eq_add {b : Nat} (a n : Nat) (hb : b < 2 ^ n) :
    b ||| (a <<< n) = 2 ^ n * a + b := by
  refine Nat.eq_of_testBit_eq fun j => ?_
  rw [Nat.testBit_lor, Nat.testBit_shiftLeft, Nat.testBit_mul_pow_two_add a hb j]
  by_cases h : j < n
  · rw [if_pos h, decide_eq_false (show ¬ j ≥ n by omega), Bool.false_and, Bool.or_false]
  · rw [if_neg h, decide_eq_true (show j ≥ n by omega), Bool.true_and,
      Nat.testBit_lt_two_pow (lt_of_lt_of_le hb (Nat.pow_le_pow_right (by norm_num)
        (by omega))), Bool.false_or]

theorem leWord_bytes_eq {b0 b1 b2 b3 : Nat} (h0 : b0 < 256) (h1 : b1 < 256)
    (h2 : b2 < 256) (h3 : b3 < 256) :
    b0 ||| (b1 <<< 8) ||| (b2 <<< 16) ||| (b3 <<< 24) =
      b0 + 256 * b1 + 65536 * b2 + 16777216 * b3 := by
  rw [lor_shiftLeft_eq_add b1 8 (by omega),
    lor_shiftLeft_eq_add b2 16 (by omega),
    lor_shiftLeft_eq_add b3 24 (by omega)]
  norm_num
  omega

theorem and255_eq_mod (x : Nat) : x &&& 255 = x % 256 := by
  have h : (255 : Nat) = 2 ^ 8 - 1 := by norm_num
  rw [h, Nat.and_pow_two_sub_one_eq_mod]

theorem packWord_unpack {x : Nat} (hx : x < 2 ^ 32) :
    (x &&& 255) ||| (((x >>> 8) &&& 255) <<< 8) ||| (((x >>> 16) &&& 255) <<< 16) |||
      (((x >>> 24) &&& 255) <<< 24) = x := by
  rw [and255_eq_mod, and255_eq_mod, and255_eq_mod, and255_eq_mod,
    Nat.shiftRight_eq_div_pow, Nat.shiftRight_eq_div_pow, Nat.shiftRight_eq_div_pow,
    leWord_bytes_eq (Nat.mod_lt _ (by norm_num)) (Nat.mod_lt _ (by norm_num))
      (Nat.mod_lt _ (by norm_num)) (Nat.mod_lt _ (by norm_num))]
  omega

theorem getD_lt_256 {bs : List Nat} (h : ∀ x ∈ bs, x < 256) (k : Nat) :
    bs.getD k 0 < 256 := by
  rw [List.getD_eq_getElem?_getD]
  cases hk : bs[k]? with
  | none => simp
  | some x => simpa using h x (List.getElem?_mem hk)

theorem leWord_lt {bs : List Nat} (h : ∀ x ∈ bs, x < 256) (off : Nat) :
    leWord bs off < 2 ^ 32 := by
  rw [leWord, leWord_bytes_eq (getD_lt_256 h _) (getD_lt_256 h _) (getD_lt_256 h _)
    (getD_lt_256 h _)]
  have h0 := getD_lt_256 h off
  have h1 := getD_lt_256 h (off + 1)
  have h2 := getD_lt_256 h (off + 2)
  have h3 := getD_lt_256 h (off + 3)
  omega

theorem pack16_bounded {bs : List Nat} (h : ∀ x ∈ bs, x < 256) : (pack16 bs).Bounded :=
  ⟨leWord_lt h 0, leWord_lt h 4, leWord_lt h 8, leWord_lt h 12⟩

theorem w4Bytes_length (X : W4) : (w4Bytes X).length = 16 := rfl

theorem w4Bytes_lt (X : W4) : ∀ x ∈ w4Bytes X, x < 256 := by
  intro x hx
  have h255 : ∀ y : Nat, y &&& 255 < 256 := by
    intro y
    rw [and255_eq_mod]
    exact Nat.mod_lt _ (by norm_num)
  simp only [w4Bytes, wordBytes, List.mem_append, List.mem_cons,
    List.not_mem_nil, or_false, or_assoc] at hx
  rcases hx with h | h | h | h | h | h | h | h | h | h | h | h | h | h | h | h <;>
    { subst h; exact h255 _ }

theorem pack16_w4Bytes {X : W4} (hX : X.Bounded) : pack16 (w4Bytes X) = X := by
  obtain ⟨a, b, c, d⟩ := X
  obtain ⟨ha, hb, hc, hd⟩ := hX
  simp only [w4Bytes, wordBytes, pack16, leWord, List.cons_append, List.nil_append,
    List.getD_cons_zero, List.getD_cons_succ]
  rw [packWord_unpack ha, packWord_unpack hb, packWord_unpack hc, packWord_unpack hd]

theorem w4Bytes_pack16 {bs : List Nat} (hlen : bs.length = 16)
    (hb : ∀ x ∈ bs, x < 256) : w4Bytes (pack16 bs) = bs := by
  rcases bs with _ | ⟨b0, _ | ⟨b1, _ | ⟨b2, _ | ⟨b3, _ | ⟨b4, _ | ⟨b5, _ | ⟨b6,
    _ | ⟨b7, _ | ⟨b8, _ | ⟨b9, _ | ⟨b10, _ | ⟨b11, _ | ⟨b12, _ | ⟨b13, _ | ⟨b14,
    _ | ⟨b15, rest⟩⟩⟩⟩⟩⟩⟩⟩⟩⟩⟩⟩⟩⟩⟩⟩ <;>
    simp only [List.length_cons, List.length_nil] at hlen <;> try omega
  have hrest : rest = [] := List.length_eq_zero.mp (by omega)
  subst hrest
  have e0 : b0 < 256 := hb b0 (by simp)
  have e1 : b1 < 256 := hb b1 (by simp)
  have e2 : b2 < 256 := hb b2 (by simp)
  have e3 : b3 < 256 := hb b3 (by simp)
  have e4 : b4 < 256 := hb b4 (by simp)
  have e5 : b5 < 256 := hb b5 (by simp)
  have e6 : b6 < 256 := hb b6 (by simp)
  have e7 : b7 < 256 := hb b7 (by simp)
  have e8 : b8 < 256 := hb b8 (by simp)
  have e9 : b9 < 256 := hb b9 (by simp)
  have e10 : b10 < 256 := hb b10 (by simp)
  have e11 : b11 < 256 := hb b11 (by simp)
  have e12 : b12 < 256 := hb b12 (by simp)
  have e13 : b13 < 256 := hb b13 (by simp)
  have e14 : b14 < 256 := hb b14 (by simp)
  have e15 : b15 < 256 := hb b15 (by simp)
  simp only [pack16, leWord, List.getD_cons_zero, List.getD_cons_succ, w4Bytes,
    wordBytes]
  rw [leWord_bytes_eq e0 e1 e2 e3, leWord_bytes_eq e4 e5 e6 e7,
    leWord_bytes_eq e8 e9 e10 e11, leWord_bytes_eq e12 e13 e14 e15]
  rw [and255_eq_mod, and255_eq_mod, and255_eq_mod, and255_eq_mod, and255_eq_mod,
    and255_eq_mod, and255_eq_mod, and255_eq_mod, and255_eq_mod, and255_eq_mod,
    and255_eq_mod, and255_eq_mod, and255_eq_mod, and255_eq_mod, and255_eq_mod,
    and255_eq_mod]
  simp only [Nat.shiftRight_eq_div_pow]
  simp only [List.cons_append, List.nil_append, List.cons.injEq]
  norm_num
  omega

/-! ### File mode: Serpent::encryptFile and Serpent::decryptFile on byte buffers

The C functions read the whole file into a byte vector, process it and write
the result; the embedding works on the byte lists directly.  `encryptFile`
returns the ciphertext bytes; `decryptFile` returns `none` exactly where the
C function returns false having written nothing, and `some out` where it
returns true having written `out`.  The per-16-byte-block loops carry the
buffer length as (more than sufficient) structural fuel. -/

def encBlocksF (SK : Nat → W4) : Nat → List Nat → List Nat
  | 0, _ => []
  | _ + 1, [] => []
  | f + 1, buf =>
    w4Bytes (encryptBlock SK (pack16 (buf.take 16))) ++ encBlocksF SK f (buf.drop 16)

def decBlocksF (SK : Nat → W4) : Nat → List Nat → List Nat
  | 0, _ => []
  | _ + 1, [] => []
  | f + 1, buf =>
    w4Bytes (decryptBlock SK (pack16 (buf.take 16))) ++ decBlocksF SK f (buf.drop 16)

def padPlain (b : List Nat) : List Nat :=
  b ++ List.replicate (16 - b.length % 16) (16 - b.length % 16)

def encryptFile (key : List Nat) (b : List Nat) : List Nat :=
  encBlocksF (keySchedule key) (padPlain b).length (padPlain b)

def decryptFile (key : List Nat) (c : List Nat) : Option (List Nat) :=
  if c.length % 16 ≠ 0 then none
  else
    let dec := decBlocksF (keySchedule key) c.length c
    if dec.isEmpty then some dec
    else
      let pl := dec.getLastD 0
      if 0 < pl ∧ pl ≤ 16 ∧ pl ≤ dec.length then some (dec.take (dec.length - pl))
      else some dec

theorem encBlocksF_cons (SK : Nat → W4) (f : Nat) (x : Nat) (xs : List Nat) :
    encBlocksF SK (f + 1) (x :: xs) =
      w4Bytes (encryptBlock SK (pack16 ((x :: xs).take 16))) ++
        encBlocksF SK f ((x :: xs).drop 16) := rfl

theorem decBlocksF_cons (SK : Nat → W4) (f : Nat) (x : Nat) (xs : List Nat) :
    decBlocksF SK (f + 1) (x :: xs) =
      w4Bytes (decryptBlock SK (pack16 ((x :: xs).take 16))) ++
        decBlocksF SK f ((x :: xs).drop 16) := rfl

theorem encBlocksF_length (SK : Nat → W4) :
    ∀ f buf, buf.length ≤ f → buf.length % 16 = 0 →
      (encBlocksF SK f buf).length = buf.length := by
  intro f
  induction f with
  | zero =>
    intro buf hf _
    have : buf = [] := List.length_eq_zero.mp (by omega)
    subst this
    rfl
  | succ f ih =>
    intro buf hf hm
    cases buf with
    | nil => rfl
    | cons x xs =>
      have hlen : (x :: xs).length ≥ 16 := by
        have := (x :: xs).length
        simp only [List.length_cons] at hf hm ⊢
        omega
      rw [encBlocksF_cons, List.length_append, w4Bytes_length,
        ih _ (by simp only [List.length_drop, List.length_cons] at hf ⊢; omega)
          (by simp only [List.length_drop, List.length_cons] at hm ⊢; omega),
        List.length_drop]
      simp only [List.length_cons] at hlen ⊢
      omega

theorem encryptBlock_bounded (SK : Nat → W4) (X : W4) : (encryptBlock SK X).Bounded :=
  inverseTranspose_bounded _

theorem decBlocksF_encBlocksF (SK : Nat → W4) (hSK : ∀ i, (SK i).Bounded) :
    ∀ f1 f2 buf, buf.length ≤ f1 → buf.length ≤ f2 → buf.length % 16 = 0 →
      (∀ x ∈ buf, x < 256) →
      decBlocksF SK f2 (encBlocksF SK f1 buf) = buf := by
  intro f1
  induction f1 with
  | zero =>
    intro f2 buf hf1 _ _ _
    have : buf = [] := List.length_eq_zero.mp (by omega)
    subst this
    cases f2 <;> rfl
  | succ f1 ih =>
    intro f2 buf hf1 hf2 hm hb
    cases buf with
    | nil => cases f2 <;> rfl
    | cons x xs =>
      have hlen : 16 ≤ (x :: xs).length := by
        simp only [List.length_cons] at hm ⊢
        omega
      obtain ⟨f2', rfl⟩ : ∃ f2', f2 = f2' + 1 := by
        cases f2
        · simp only [List.length_cons] at hf2; omega
        · exact ⟨_, rfl⟩
      rw [encBlocksF_cons]
      have htake : ((x :: xs).take 16).length = 16 := by
        rw [List.length_take]
        omega
      have hchunklt : ∀ y ∈ (x :: xs).take 16, y < 256 :=
        fun y hy => hb y (List.take_subset 16 (x :: xs) hy)
      have hw16 : (w4Bytes (encryptBlock SK (pack16 ((x :: xs).take 16)))).length = 16 :=
        w4Bytes_length _
      obtain ⟨z, zs, hz⟩ : ∃ z zs, w4Bytes (encryptBlock SK (pack16 ((x :: xs).take 16))) =
          z :: zs := by
        cases hzz : w4Bytes (encryptBlock SK (pack16 ((x :: xs).take 16))) with
        | nil => rw [hzz] at hw16; simp at hw16
        | cons z zs => exact ⟨z, zs, rfl⟩
      rw [hz, List.cons_append, decBlocksF_cons, ← List.cons_append, ← hz]
      have htake16 := List.take_left (w4Bytes (encryptBlock SK (pack16 ((x :: xs).take 16))))
        (encBlocksF SK f1 ((x :: xs).drop 16))
      have hdrop16 := List.drop_left (w4Bytes (encryptBlock SK (pack16 ((x :: xs).take 16))))
        (encBlocksF SK f1 ((x :: xs).drop 16))
      rw [hw16] at htake16 hdrop16
      rw [htake16, hdrop16, pack16_w4Bytes (encryptBlock_bounded _ _),
        decryptBlock_encryptBlock SK hSK (pack16_bounded hchunklt),
        w4Bytes_pack16 htake hchunklt,
        ih f2' ((x :: xs).drop 16)
          (by simp only [List.length_drop, List.length_cons] at hf1 ⊢; omega)
          (by simp only [List.length_drop, List.length_cons] at hf2 ⊢; omega)
          (by simp only [List.length_drop, List.length_cons] at hm ⊢; omega)
          (fun y hy => hb y (List.drop_subset 16 (x :: xs) hy)),
        List.take_append_drop]

theorem padPlain_lt {b : List Nat} (hb : ∀ x ∈ b, x < 256) : ∀ x ∈ padPlain b, x < 256 := by
  intro x hx
  rcases List.mem_append.mp hx with h | h
  · exact hb x h
  · have hx16 := List.eq_of_mem_replicate h
    omega

theorem padPlain_length (b : List Nat) :
    (padPlain b).length = b.length + (16 - b.length % 16) := by
  simp [padPlain]

theorem padPlain_mod (b : List Nat) : (padPlain b).length % 16 = 0 := by
  rw [padPlain_length]
  omega

theorem getLastD_append_replicate (bs : List Nat) (n v d : Nat) :
    (bs ++ List.replicate (n + 1) v).getLastD d = v := by
  rw [List.replicate_succ', ← List.append_assoc, List.getLastD_concat]

theorem padPlain_getLastD (b : List Nat) :
    (padPlain b).getLastD 0 = 16 - b.length % 16 := by
  rw [padPlain, show 16 - b.length % 16 = (16 - b.length % 16 - 1) + 1 by omega,
    getLastD_append_replicate]

/-- C1: for every 33-entry subkey table installed by the key schedule of a
32-byte key and every 128-bit block P given as four 32-bit words,
decryptBlock undoes encryptBlock: decryptBlock(K, encryptBlock(K, P)) = P. -/
theorem serpent_block_roundtrip (key : List Nat) (hlen : key.length = 32)
    (hbytes : ∀ x ∈ key, x < 256) {P : W4} (hP : P.Bounded) :
    decryptBlock (keySchedule key) (encryptBlock (keySchedule key) P) = P :=
  decryptBlock_encryptBlock _ (keySchedule_bounded key) hP

/-- Witness for C1: the all-zero 32-byte key and the block (1, 2, 3, 4). -/
theorem serpent_block_roundtrip_witness :
    decryptBlock (keySchedule (List.replicate 32 0))
      (encryptBlock (keySchedule (List.replicate 32 0)) ⟨1, 2, 3, 4⟩) = ⟨1, 2, 3, 4⟩ :=
  serpent_block_roundtrip (List.replicate 32 0) rfl (by decide) (by decide)

/-- C2: decryptFile inverts encryptFile on every byte buffer (the empty
buffer and exact multiples of 16 included), and encrypting the empty buffer
yields exactly 16 ciphertext bytes (one pure-padding block); decrypting that
ciphertext yields zero bytes, which is the roundtrip conjunct at b = []. -/
theorem serpent_file_roundtrip (key b : List Nat) (hb : ∀ x ∈ b, x < 256) :
    decryptFile key (encryptFile key b) = some b ∧
    (encryptFile key []).length = 16 := by
  constructor
  · have hSK := keySchedule_bounded key
    have hpl := padPlain_lt hb
    have hm := padPlain_mod b
    have hclen : (encryptFile key b).length = (padPlain b).length :=
      encBlocksF_length _ _ _ (le_refl _) hm
    have hrt : decBlocksF (keySchedule key) (encryptFile key b).length
        (encryptFile key b) = padPlain b := by
      rw [hclen]
      exact decBlocksF_encBlocksF _ hSK _ _ _ (le_refl _) (le_refl _) hm hpl
    have hplen := padPlain_length b
    rw [decryptFile]
    rw [if_neg (show ¬ ((encryptFile key b).length % 16 ≠ 0) by rw [hclen]; omega)]
    simp only [hrt]
    have hne : padPlain b ≠ [] := by
      intro h
      have := congrArg List.length h
      rw [hplen] at this
      simp at this
      omega
    rw [if_neg (show ¬ ((padPlain b).isEmpty = true) from
      fun h => hne (List.isEmpty_iff.mp h))]
    rw [padPlain_getLastD]
    rw [if_pos (show 0 < 16 - b.length % 16 ∧ 16 - b.length % 16 ≤ 16 ∧
      16 - b.length % 16 ≤ (padPlain b).length by omega)]
    have htake : (padPlain b).length - (16 - b.length % 16) = b.length := by omega
    rw [htake, padPlain, List.take_left]
  · rw [encryptFile, encBlocksF_length _ _ _ (le_refl _) (padPlain_mod [])]
    rfl

/-- Witness for C2: the all-zero 32-byte key and the three-byte buffer
[65, 66, 67]. -/
theorem serpent_file_roundtrip_witness :
    decryptFile (List.replicate 32 0) (encryptFile (List.replicate 32 0) [65, 66, 67]) =
      some [65, 66, 67] ∧
    (encryptFile (List.replicate 32 0) []).length = 16 :=
  serpent_file_roundtrip _ _ (by decide)

/-- C8: encryptFile appends exactly P = 16 - (L mod 16) padding bytes of
value P, with 1 <= P <= 16 (a full padding block when L is a multiple of
16), so the ciphertext always has ((L / 16) + 1) * 16 bytes. -/
theorem pkcs7_padding (key b : List Nat) :
    padPlain b = b ++ List.replicate (16 - b.length % 16) (16 - b.length % 16) ∧
    1 ≤ 16 - b.length % 16 ∧ 16 - b.length % 16 ≤ 16 ∧
    (encryptFile key b).length = (b.length / 16 + 1) * 16 := by
  refine ⟨rfl, by omega, by omega, ?_⟩
  rw [encryptFile, encBlocksF_length _ _ _ (le_refl _) (padPlain_mod b), padPlain_length]
  omega

/-- C4 (amended): decryptFile fails, writing no output, exactly when the
ciphertext length is not a multiple of 16; in particular the empty input
is accepted and decrypts to the empty output. -/
theorem decryptFile_none_iff (key c : List Nat) :
    decryptFile key c = none ↔ c.length % 16 ≠ 0 := by
  by_cases h : c.length % 16 ≠ 0
  · simp [decryptFile, h]
  · simp only [decryptFile, if_neg h]
    split_ifs <;> simp [h]

/-- Counterexample for C4 as stated: the empty ciphertext has length 0,
which is not a positive multiple of 16, yet decryptFile succeeds and
returns the empty plaintext instead of failing with InvalidCiphertext. -/
theorem decryptFile_empty_succeeds :
    decryptFile (List.replicate 32 0) [] = some [] := rfl

/-- C3 (code behavior at the failing input): a one-block ciphertext whose
decryption ends in the byte 0 (outside [1,16]) makes decryptFile return
success and deliver all 16 decrypted bytes untruncated, instead of failing
with InvalidPadding and delivering nothing. -/
theorem invalid_padding_delivers_plaintext :
    decryptFile (List.replicate 32 0)
      (encBlocksF (keySchedule (List.replicate 32 0)) 16 (List.replicate 16 0)) =
      some (List.replicate 16 0) ∧
    (decBlocksF (keySchedule (List.replicate 32 0)) 16
      (encBlocksF (keySchedule (List.replicate 32 0)) 16 (List.replicate 16 0))).getLastD 0
      = 0 := by
  have hSK := keySchedule_bounded (List.replicate 32 0)
  have hz : ∀ x ∈ List.replicate 16 (0 : Nat), x < 256 := by decide
  have hm : (List.replicate 16 (0 : Nat)).length % 16 = 0 := rfl
  have hC : (encBlocksF (keySchedule (List.replicate 32 0)) 16
      (List.replicate 16 0)).length = 16 :=
    encBlocksF_length _ 16 (List.replicate 16 0) (le_refl _) hm
  have hdec : decBlocksF (keySchedule (List.replicate 32 0)) 16
      (encBlocksF (keySchedule (List.replicate 32 0)) 16 (List.replicate 16 0)) =
      List.replicate 16 0 :=
    decBlocksF_encBlocksF _ hSK 16 16 (List.replicate 16 0) (le_refl _) (le_refl _) hm hz
  have hlast : (List.replicate 16 (0 : Nat)).getLastD 0 = 0 := by decide
  refine ⟨?_, by rw [hdec, hlast]⟩
  rw [decryptFile, if_neg (show ¬ ((encBlocksF (keySchedule (List.replicate 32 0)) 16
    (List.replicate 16 0)).length % 16 ≠ 0) by rw [hC]; decide)]
  rw [hC, hdec]
  rw [if_neg (show ¬ ((List.replicate 16 (0 : Nat)).isEmpty = true) by decide)]
  rw [hlast]
  rw [if_neg (show ¬ ((0 : Nat) < 0 ∧ (0 : Nat) ≤ 16 ∧ (0 : Nat) ≤
    (List.replicate 16 (0 : Nat)).length) by omega)]

/-- C7: the key schedule reads the 32 key bytes as eight little-endian words
w[0..7], expands them to w[8..139] by
w[i] = ROL(w[i-8] xor w[i-5] xor w[i-3] xor w[i-1] xor 0x9e3779b9 xor (i-8), 11),
and subkey i (i < 33) applies S-box index (8 + 3 - i) mod 8 in bitsliced
form to (w[4i+8], w[4i+9], w[4i+10], w[4i+11]). -/
theorem keySchedule_spec (key : List Nat) (hlen : key.length = 32) :
    (∀ i, i < 33 → keySchedule key i =
      applySBox (((8 + 3 - (i : Int)) % 8).toNat)
        ⟨wWord key (4 * i + 8), wWord key (4 * i + 9), wWord key (4 * i + 10),
         wWord key (4 * i + 11)⟩) ∧
    (∀ i, 8 ≤ i → i < 140 → wWord key i =
      rol32 (wWord key (i - 8) ^^^ wWord key (i - 5) ^^^ wWord key (i - 3) ^^^
        wWord key (i - 1) ^^^ 0x9e3779b9 ^^^ (i - 8)) 11) ∧
    (∀ i, i < 8 → wWord key i =
      key.getD (i * 4) 0 ||| (key.getD (i * 4 + 1) 0 <<< 8) |||
      (key.getD (i * 4 + 2) 0 <<< 16) ||| (key.getD (i * 4 + 3) 0 <<< 24)) := by
  have hidx : ∀ i, i < 33 → sboxIndex i = ((8 + 3 - (i : Int)) % 8).toNat := by decide
  refine ⟨?_, ?_, ?_⟩
  · intro i hi
    rw [keySchedule, hidx i hi]
  · intro i h8 _
    rw [wWord_ge8 key i h8]
    rfl
  · intro i hi
    rw [wWord_lt8 key i hi]
    rfl

/-- Witness for C7: the key-schedule characterization at the all-zero
32-byte key. -/
theorem keySchedule_spec_witness :
    (∀ i, i < 33 → keySchedule (List.replicate 32 0) i =
      applySBox (((8 + 3 - (i : Int)) % 8).toNat)
        ⟨wWord (List.replicate 32 0) (4 * i + 8), wWord (List.replicate 32 0) (4 * i + 9),
         wWord (List.replicate 32 0) (4 * i + 10), wWord (List.replicate 32 0) (4 * i + 11)⟩) ∧
    (∀ i, 8 ≤ i → i < 140 → wWord (List.replicate 32 0) i =
      rol32 (wWord (List.replicate 32 0) (i - 8) ^^^ wWord (List.replicate 32 0) (i - 5) ^^^
        wWord (List.replicate 32 0) (i - 3) ^^^ wWord (List.replicate 32 0) (i - 1) ^^^
        0x9e3779b9 ^^^ (i - 8)) 11) ∧
    (∀ i, i < 8 → wWord (List.replicate 32 0) i =
      (List.replicate 32 0).getD (i * 4) 0 |||
      ((List.replicate 32 0).getD (i * 4 + 1) 0 <<< 8) |||
      ((List.replicate 32 0).getD (i * 4 + 2) 0 <<< 16) |||
      ((List.replicate 32 0).getD (i * 4 + 3) 0 <<< 24)) :=
  keySchedule_spec (List.replicate 32 0) rfl

/-! ### Serpent::setKey

mpz_export with order = -1, size = 1, endian = -1 emits the little-endian
byte string of the session key (nothing for 0); setKey then inserts zero
bytes at the FRONT of that vector until it has 32 bytes (zero-padding the
least-significant end), or keeps the last 32 bytes if it is longer. -/

def natLeBytesF : Nat → Nat → List Nat
  | 0, _ => []
  | f + 1, k => if k = 0 then [] else k % 256 :: natLeBytesF f (k / 256)

def mpzExportLE (k : Nat) : List Nat := natLeBytesF k k

def setKeyBytes (k : Nat) : List Nat :=
  if k = 0 then List.replicate 32 0
  else
    let bs := mpzExportLE k
    let padded := List.replicate (32 - bs.length) 0 ++ bs
    if 32 < padded.length then padded.drop (padded.length - 32) else padded

theorem natLeBytesF_fuel : ∀ f g k, k ≤ f → k ≤ g → natLeBytesF f k = natLeBytesF g k := by
  intro f
  induction f with
  | zero =>
    intro g k hf _
    have hk : k = 0 := by omega
    subst hk
    cases g <;> simp [natLeBytesF]
  | succ f ih =>
    intro g k hf hg
    cases g with
    | zero =>
      have hk : k = 0 := by omega
      subst hk
      simp [natLeBytesF]
    | succ g =>
      by_cases hk : k = 0
      · subst hk
        simp [natLeBytesF]
      · simp only [natLeBytesF, if_neg hk]
        have hdiv : k / 256 < k := Nat.div_lt_self (by omega) (by norm_num)
        rw [ih g (k / 256) (by omega) (by omega)]

theorem natLeBytesF_length : ∀ f k n, k < 256 ^ n → (natLeBytesF f k).length ≤ n := by
  intro f
  induction f with
  | zero => simp [natLeBytesF]
  | succ f ih =>
    intro k n hk
    by_cases hk0 : k = 0
    · simp [natLeBytesF, hk0]
    · simp only [natLeBytesF, if_neg hk0, List.length_cons]
      have hn : n ≠ 0 := by
        intro h
        subst h
        simp at hk
        omega
      have hdiv : k / 256 < 256 ^ (n - 1) := by
        rw [Nat.div_lt_iff_lt_mul (by norm_num)]
        calc k < 256 ^ n := hk
        _ = 256 ^ (n - 1) * 256 := by
          rw [← pow_succ]
          congr 1
          omega
      have := ih (k / 256) (n - 1) hdiv
      omega

theorem mpzExportLE_shift {k : Nat} (hk : k ≠ 0) :
    mpzExportLE (256 * k) = 0 :: mpzExportLE k := by
  rw [mpzExportLE, mpzExportLE]
  obtain ⟨f, hf⟩ : ∃ f, 256 * k = f + 1 := ⟨256 * k - 1, by omega⟩
  rw [hf]
  simp only [natLeBytesF, if_neg (show f + 1 ≠ 0 by omega)]
  rw [← hf, Nat.mul_mod_right, Nat.mul_div_cancel_left k (by norm_num)]
  congr 1
  exact natLeBytesF_fuel f k k (by omega) (le_refl k)

theorem setKeyBytes_mul256 {k : Nat} (h0 : 0 < k) (h2 : k < 2 ^ 248) :
    setKeyBytes (256 * k) = setKeyBytes k := by
  have hk : k ≠ 0 := by omega
  have h256 : 256 * k ≠ 0 := by omega
  have hlen : (mpzExportLE k).length ≤ 31 := by
    apply natLeBytesF_length
    calc k < 2 ^ 248 := h2
    _ = 256 ^ 31 := by norm_num
  simp only [setKeyBytes, if_neg hk, if_neg h256, mpzExportLE_shift hk,
    List.length_cons, List.length_append, List.length_replicate]
  rw [if_neg (by omega), if_neg (by omega)]
  rw [show 32 - ((mpzExportLE k).length + 1) = 32 - (mpzExportLE k).length - 1 by omega]
  rw [show 32 - (mpzExportLE k).length = (32 - (mpzExportLE k).length - 1) + 1 by omega,
    List.replicate_succ', List.append_assoc]
  rfl

/-- C10: for every session key k with 0 < k < 2^248, setKey(k) and
setKey(256 k) normalize to the same 32 key bytes (the little-endian byte
export is zero-padded at its least-significant end), hence install the same
subkey table, and all block encryptions and decryptions under the two
session keys coincide. -/
theorem setKey_mul256_same (k : Nat) (h0 : 0 < k) (h2 : k < 2 ^ 248) :
    setKeyBytes (256 * k) = setKeyBytes k ∧
    keySchedule (setKeyBytes (256 * k)) = keySchedule (setKeyBytes k) ∧
    encryptBlock (keySchedule (setKeyBytes (256 * k))) =
      encryptBlock (keySchedule (setKeyBytes k)) ∧
    decryptBlock (keySchedule (setKeyBytes (256 * k))) =
      decryptBlock (keySchedule (setKeyBytes k)) := by
  have h := setKeyBytes_mul256 h0 h2
  exact ⟨h, by rw [h], by rw [h], by rw [h]⟩

/-- Witness for C10 at k = 1. -/
theorem setKey_mul256_same_witness :
    setKeyBytes (256 * 1) = setKeyBytes 1 ∧
    keySchedule (setKeyBytes (256 * 1)) = keySchedule (setKeyBytes 1) ∧
    encryptBlock (keySchedule (setKeyBytes (256 * 1))) =
      encryptBlock (keySchedule (setKeyBytes 1)) ∧
    decryptBlock (keySchedule (setKeyBytes (256 * 1))) =
      decryptBlock (keySchedule (setKeyBytes 1)) :=
  setKey_mul256_same 1 (by omega) (by norm_num)

/-! ### The RSA primitive (src/modules/rsa.cpp)

mpz_class values are naturals (they are nonnegative throughout rsa.cpp,
except for the encrypt/decrypt arguments, which are modelled as integers so
that the sign check is meaningful).  The GMP PRNG is modelled by a stream
of draw values: stream i is the value the i-th call to the generator draws
(reduced modulo the requested range).  Fast modular exponentiation is given
structural fuel so that concrete instances reduce. -/

def powModF : Nat → Nat → Nat → Nat → Nat
  | 0, _, _, p => 1 % p
  | f + 1, a, n, p =>
    if n = 0 then 1 % p
    else
      let r := powModF f (a * a % p) (n / 2) p
      if n % 2 = 1 then r * a % p else r

def powMod (a n p : Nat) : Nat := powModF n a n p

theorem powModF_eq : ∀ f n a p, 0 < p → n < 2 ^ f → powModF f a n p = a ^ n % p := by
  intro f
  induction f with
  | zero =>
    intro n a p hp hn
    rw [pow_zero] at hn
    have hn0 : n = 0 := by omega
    subst hn0
    simp [powModF]
  | succ f ih =>
    intro n a p hp hn
    by_cases h0 : n = 0
    · subst h0
      simp [powModF]
    · simp only [powModF, if_neg h0]
      rw [ih (n / 2) (a * a % p) p hp (by rw [pow_succ] at hn; omega)]
      have hbase : (a * a % p) ^ (n / 2) % p = (a * a) ^ (n / 2) % p := by
        rw [← Nat.pow_mod]
      by_cases h2 : n % 2 = 1
      · rw [if_pos h2, hbase, Nat.mod_mul_mod]
        congr 1
        rw [show a * a = a ^ 2 by ring, ← pow_mul, ← pow_succ]
        congr 1
        omega
      · rw [if_neg h2, hbase]
        congr 1
        rw [show a * a = a ^ 2 by ring, ← pow_mul]
        congr 1
        omega

theorem powMod_eq (a n p : Nat) (hp : 0 < p) : powMod a n p = a ^ n % p :=
  powModF_eq n n a p hp (Nat.lt_two_pow n)

theorem powMod_lt (a n p : Nat) (hp : 0 < p) : powMod a n p < p := by
  rw [powMod_eq a n p hp]
  exact Nat.mod_lt _ hp

def noDivAux (n : Nat) : Nat → Bool
  | 0 => true
  | d + 1 => (decide (d < 2) || decide (n % d ≠ 0)) && noDivAux n d

def isPrime (n : Nat) : Bool := decide (2 ≤ n) && noDivAux n n

theorem noDivAux_iff (n : Nat) :
    ∀ m, noDivAux n m = true ↔ ∀ d, d < m → 2 ≤ d → n % d ≠ 0 := by
  intro m
  induction m with
  | zero => simp [noDivAux]
  | succ m ih =>
    simp only [noDivAux, Bool.and_eq_true, ih, Bool.or_eq_true, decide_eq_true_eq]
    constructor
    · rintro ⟨h1, h2⟩ d hd h2d
      by_cases hdm : d = m
      · subst hdm
        rcases h1 with h | h
        · omega
        · exact h
      · exact h2 d (by omega) h2d
    · intro h
      constructor
      · by_cases hm2 : m < 2
        · left
          exact hm2
        · right
          exact h m (by omega) (by omega)
      · intro d hd h2d
        exact h d (by omega) h2d

theorem isPrime_iff (n : Nat) : isPrime n = true ↔ n.Prime := by
  rw [isPrime, Bool.and_eq_true, decide_eq_true_eq, noDivAux_iff, Nat.prime_def_lt]
  constructor
  · rintro ⟨h2, h⟩
    refine ⟨h2, fun m hm hdvd => ?_⟩
    by_contra hm1
    have hm0 : m ≠ 0 := by
      intro h0
      subst h0
      have := Nat.eq_zero_of_zero_dvd hdvd
      omega
    exact h m hm (by omega) (Nat.dvd_iff_mod_eq_zero.mp hdvd)
  · rintro ⟨h2, h⟩
    refine ⟨h2, fun d hd h2d hmod => ?_⟩
    have hdvd : d ∣ n := Nat.dvd_iff_mod_eq_zero.mpr hmod
    have := h d hd hdvd
    omega

theorem prime_of_noDiv_sqrt {n bound : Nat} (h2 : 2 ≤ n)
    (hdiv : noDivAux n bound = true) (hsq : Nat.sqrt n < bound) : n.Prime := by
  rw [Nat.prime_def_le_sqrt]
  refine ⟨h2, fun m hm2 hmsq hdvd => ?_⟩
  exact (noDivAux_iff n bound).mp hdiv m (by omega) hm2
    (Nat.dvd_iff_mod_eq_zero.mp hdvd)

def npAux : Nat → Nat → Nat
  | 0, c => c
  | f + 1, c => if isPrime c then c else npAux f (c + 1)

def nextPrime (x : Nat) : Nat := npAux (x + 2) (x + 1)

theorem npAux_spec : ∀ f c, (∃ p, c ≤ p ∧ p ≤ c + f ∧ p.Prime) →
    (npAux f c).Prime ∧ c ≤ npAux f c ∧ ∀ q, c ≤ q → q.Prime → npAux f c ≤ q := by
  intro f
  induction f with
  | zero =>
    rintro c ⟨p, hcp, hpc, hp⟩
    have hpeq : p = c := by omega
    subst hpeq
    exact ⟨hp, le_refl _, fun q hq _ => hq⟩
  | succ f ih =>
    rintro c hex
    by_cases hc : isPrime c = true
    · simp only [npAux, if_pos hc]
      exact ⟨(isPrime_iff c).mp hc, le_refl _, fun q hq _ => hq⟩
    · simp only [npAux, if_neg hc]
      obtain ⟨p, hcp, hpc, hp⟩ := hex
      have hpc1 : c + 1 ≤ p := by
        rcases Nat.eq_or_lt_of_le hcp with h | h
        · exact absurd ((isPrime_iff c).mpr (h ▸ hp)) hc
        · omega
      have hres := ih (c + 1) ⟨p, hpc1, by omega, hp⟩
      refine ⟨hres.1, by omega, fun q hq hqp => ?_⟩
      have hqc : q ≠ c := by
        intro h
        subst h
        exact hc ((isPrime_iff q).mpr hqp)
      exact hres.2.2 q (by omega) hqp

theorem nextPrime_spec (x : Nat) :
    (nextPrime x).Prime ∧ x < nextPrime x ∧
      ∀ q, x < q → q.Prime → nextPrime x ≤ q := by
  have hex : ∃ p, x + 1 ≤ p ∧ p ≤ x + 1 + (x + 2) ∧ p.Prime := by
    rcases Nat.eq_zero_or_pos x with h | h
    · subst h
      exact ⟨2, by omega, by omega, Nat.prime_two⟩
    · obtain ⟨p, hp, h1, h2⟩ := Nat.bertrand x (by omega)
      exact ⟨p, by omega, by omega, hp⟩
  have hres := npAux_spec (x + 2) (x + 1) hex
  refine ⟨hres.1, ?_, fun q hq hqp => hres.2.2 q (by omega) hqp⟩
  show x < npAux (x + 2) (x + 1)
  have := hres.2.1
  omega

theorem nextPrime_of_prime_succ {x : Nat} (h : Nat.Prime (x + 1)) :
    nextPrime x = x + 1 := by
  have hiP : isPrime (x + 1) = true := (isPrime_iff _).mpr h
  show npAux (x + 2) (x + 1) = x + 1
  rw [show x + 2 = (x + 1) + 1 from rfl]
  simp only [npAux, if_pos hiP]

/-- mpz_invert: the inverse of e modulo m, as the canonical representative
in [0, m) of the extended-gcd coefficient. -/
def invMod (e m : Nat) : Nat := ((Nat.gcdA e m) % (m : Int)).toNat

theorem invMod_spec {e m : Nat} (hm : 1 < m) (hg : Nat.gcd e m = 1) :
    0 < invMod e m ∧ invMod e m < m ∧ (e * invMod e m) % m = 1 := by
  have hm0 : (m : Int) ≠ 0 := by
    simp only [ne_eq, Nat.cast_eq_zero]
    omega
  have hmpos : (0 : Int) < m := by
    exact_mod_cast (show 0 < m by omega)
  have hnn : 0 ≤ Nat.gcdA e m % (m : Int) := Int.emod_nonneg _ hm0
  have hlt : Nat.gcdA e m % (m : Int) < m := Int.emod_lt_of_pos _ hmpos
  have hbezout : (1 : Int) = e * Nat.gcdA e m + m * Nat.gcdB e m := by
    have h := Nat.gcd_eq_gcd_ab e m
    rw [hg] at h
    exact_mod_cast h
  have hcast : ((invMod e m : Nat) : Int) = Nat.gcdA e m % (m : Int) :=
    Int.toNat_of_nonneg hnn
  have hmodeq : ((e * invMod e m : Nat) : Int) % m = 1 % (m : Int) := by
    push_cast
    rw [hcast, Int.mul_emod, Int.emod_emod_of_dvd _ (dvd_refl _), ← Int.mul_emod]
    have hsub : (e : Int) * Nat.gcdA e m = 1 - m * Nat.gcdB e m := by
      omega
    rw [hsub, Int.sub_emod, Int.mul_emod_right]
    simp
  have hmod1 : (1 : Int) % m = 1 := by
    rw [Int.emod_eq_of_lt (by omega) (by exact_mod_cast hm)]
  rw [hmod1, ← Int.natCast_mod] at hmodeq
  have hnat : (e * invMod e m) % m = 1 := by
    exact_mod_cast hmodeq
  have hdlt : invMod e m < m := by
    have : ((invMod e m : Nat) : Int) < m := hcast ▸ hlt
    exact_mod_cast this
  refine ⟨?_, hdlt, hnat⟩
  by_contra h0
  have hd0 : invMod e m = 0 := by omega
  rw [hd0, Nat.mul_zero, Nat.zero_mod] at hnat
  omega

/-! ### rsa_keygen, rsa_encrypt, rsa_decrypt -/

structure RSAKey where
  n : Nat
  e : Nat
  d : Nat
deriving DecidableEq, Repr

structure KeygenTrace where
  p : Nat
  q : Nat
  n : Nat
  e : Nat
  d : Nat
deriving DecidableEq, Repr

/-- random_bits of rsa.cpp: a uniform draw below 2^bits (the stream value
reduced into range) with the top bit forced to 1. -/
def random_bits (r : Nat) (bits : Nat) : Nat :=
  if bits = 0 then 0 else (r % 2 ^ bits) ||| (1 <<< (bits - 1))

def next_prime_of_bits (r bits : Nat) : Nat := nextPrime (random_bits r bits)

/-- The q-sampling loop of rsa_keygen: draw q and redraw while p == q. -/
def pickQ (stream : Nat → Nat) (p half : Nat) : Nat → Nat → Option (Nat × Nat)
  | 0, _ => none
  | f + 1, idx =>
    let q := next_prime_of_bits (stream idx) half
    if p = q then pickQ stream p half f (idx + 1) else some (q, idx + 1)

/-- The e-resampling loop of rsa_keygen: draw a random odd e in [2, phi)
until it is coprime to phi. -/
def pickE (stream : Nat → Nat) (phiN : Nat) : Nat → Nat → Option Nat
  | 0, _ => none
  | f + 1, idx =>
    let e0 := stream idx % (phiN - 2) + 2
    let e1 := if e0 % 2 = 0 then e0 + 1 else e0
    if Nat.gcd e1 phiN = 1 then some e1 else pickE stream phiN f (idx + 1)

def rsa_keygen_full (bits : Nat) (stream : Nat → Nat) (fuel : Nat) :
    Option KeygenTrace :=
  if bits < 256 then none
  else
    let half := bits / 2
    let p := next_prime_of_bits (stream 0) half
    match pickQ stream p (bits - half) fuel 1 with
    | none => none
    | some (q, idx) =>
      let phiN := (p - 1) * (q - 1)
      let eRes := if Nat.gcd 65537 phiN = 1 then some 65537
        else pickE stream phiN fuel idx
      match eRes with
      | none => none
      | some e =>
        if Nat.gcd e phiN = 1 then some ⟨p, q, p * q, e, invMod e phiN⟩ else none

def rsa_keygen (bits : Nat) (stream : Nat → Nat) (fuel : Nat) : Option RSAKey :=
  (rsa_keygen_full bits stream fuel).map fun t => ⟨t.n, t.e, t.d⟩

def rsa_encrypt (m : Int) (key : RSAKey) : Option Int :=
  if m < 0 then none
  else if (key.n : Int) ≤ m then none
  else some ((m.toNat ^ key.e % key.n : Nat) : Int)

def rsa_decrypt (c : Int) (key : RSAKey) : Option Int :=
  if c < 0 then none
  else if (key.n : Int) ≤ c then none
  else some ((c.toNat ^ key.d % key.n : Nat) : Int)

theorem random_bits_ge (r : Nat) {b : Nat} (hb : 0 < b) :
    2 ^ (b - 1) ≤ random_bits r b := by
  rw [random_bits, if_neg (by omega)]
  apply Nat.testBit_implies_ge (i := b - 1)
  rw [Nat.testBit_lor, Nat.one_shiftLeft, Nat.testBit_two_pow]
  simp

theorem pickQ_inv (stream : Nat → Nat) (p half : Nat) :
    ∀ fuel idx q idx2, pickQ stream p half fuel idx = some (q, idx2) →
      p ≠ q ∧ ∃ j, q = next_prime_of_bits (stream j) half := by
  intro fuel
  induction fuel with
  | zero =>
    intro idx q idx2 h
    simp [pickQ] at h
  | succ fuel ih =>
    intro idx q idx2 h
    simp only [pickQ] at h
    split_ifs at h with hpq
    · exact ih (idx + 1) q idx2 h
    · simp only [Option.some.injEq, Prod.mk.injEq] at h
      refine ⟨?_, idx, h.1.symm⟩
      rw [← h.1]
      exact hpq

theorem pickE_inv (stream : Nat → Nat) (phiN : Nat) :
    ∀ fuel idx e, pickE stream phiN fuel idx = some e → Nat.gcd e phiN = 1 := by
  intro fuel
  induction fuel with
  | zero =>
    intro idx e h
    simp [pickE] at h
  | succ fuel ih =>
    intro idx e h
    simp only [pickE] at h
    split_ifs at h <;>
      first
        | (simp only [Option.some.injEq] at h
           subst h
           assumption)
        | exact ih (idx + 1) e h

theorem rsa_keygen_full_inv {bits : Nat} {stream : Nat → Nat} {fuel : Nat}
    {t : KeygenTrace} (h : rsa_keygen_full bits stream fuel = some t) :
    256 ≤ bits ∧
    t.p.Prime ∧ t.q.Prime ∧ t.p ≠ t.q ∧
    2 ^ (bits / 2 - 1) < t.p ∧ 2 ^ (bits - bits / 2 - 1) < t.q ∧
    t.n = t.p * t.q ∧
    Nat.gcd t.e ((t.p - 1) * (t.q - 1)) = 1 ∧
    t.d = invMod t.e ((t.p - 1) * (t.q - 1)) := by
  simp only [rsa_keygen_full] at h
  split_ifs at h with hb
  cases hq : pickQ stream (next_prime_of_bits (stream 0) (bits / 2))
      (bits - bits / 2) fuel 1 with
  | none =>
    rw [hq] at h
    simp at h
  | some qi =>
    obtain ⟨q, idx⟩ := qi
    rw [hq] at h
    dsimp only at h
    obtain ⟨hpq, j, hqj⟩ := pickQ_inv stream _ _ fuel 1 q idx hq
    have hqprime : q.Prime := by
      rw [hqj]
      exact (nextPrime_spec _).1
    have hqge : 2 ^ (bits - bits / 2 - 1) < q := by
      rw [hqj]
      calc 2 ^ (bits - bits / 2 - 1) ≤ random_bits (stream j) (bits - bits / 2) :=
        random_bits_ge _ (by omega)
      _ < next_prime_of_bits (stream j) (bits - bits / 2) := (nextPrime_spec _).2.1
    have hpprime : (next_prime_of_bits (stream 0) (bits / 2)).Prime :=
      (nextPrime_spec _).1
    have hpge : 2 ^ (bits / 2 - 1) < next_prime_of_bits (stream 0) (bits / 2) := by
      calc 2 ^ (bits / 2 - 1) ≤ random_bits (stream 0) (bits / 2) :=
        random_bits_ge _ (by omega)
      _ < next_prime_of_bits (stream 0) (bits / 2) := (nextPrime_spec _).2.1
    set phiN := (next_prime_of_bits (stream 0) (bits / 2) - 1) * (q - 1) with hphi
    by_cases hge : Nat.gcd 65537 phiN = 1
    · rw [if_pos hge] at h
      dsimp only at h
      rw [if_pos hge] at h
      simp only [Option.some.injEq] at h
      subst h
      exact ⟨by omega, hpprime, hqprime, hpq, hpge, hqge, rfl, hge, rfl⟩
    · rw [if_neg hge] at h
      cases he : pickE stream phiN fuel idx with
      | none =>
        rw [he] at h
        simp at h
      | some e =>
        rw [he] at h
        dsimp only at h
        have hge2 := pickE_inv stream phiN fuel idx e he
        rw [if_pos hge2] at h
        simp only [Option.some.injEq] at h
        subst h
        exact ⟨by omega, hpprime, hqprime, hpq, hpge, hqge, rfl, hge2, rfl⟩

/-- C5 (amended): every key rsa_keygen returns (for any bits and any PRNG
outcome) has n = p * q > 2^(bits-2) for the two generated primes p and q,
gcd(e, phi(n)) = 1, and 0 < d < phi(n).  The bound 2^(bits-1) of the
original claim is out of reach: only the top bit of each prime candidate is
forced, so n is only guaranteed to exceed 2^(bits-2). -/
theorem rsa_keygen_invariants (bits : Nat) (stream : Nat → Nat) (fuel : Nat)
    (t : KeygenTrace) (hkg : rsa_keygen_full bits stream fuel = some t) :
    2 ^ (bits - 2) < t.n ∧ t.p.Prime ∧ t.q.Prime ∧ t.n = t.p * t.q ∧
    Nat.gcd t.e ((t.p - 1) * (t.q - 1)) = 1 ∧
    0 < t.d ∧ t.d < (t.p - 1) * (t.q - 1) := by
  obtain ⟨hb, hp, hq, hpq, hpge, hqge, hn, hg, hd⟩ := rsa_keygen_full_inv hkg
  have hsplit : bits / 2 - 1 + (bits - bits / 2 - 1) = bits - 2 := by omega
  have hnbig : 2 ^ (bits - 2) < t.n := by
    rw [hn, ← hsplit, pow_add]
    exact Nat.mul_lt_mul'' hpge hqge
  have hp2 : 2 ≤ 2 ^ (bits / 2 - 1) := by
    calc (2 : Nat) = 2 ^ 1 := rfl
    _ ≤ 2 ^ (bits / 2 - 1) := Nat.pow_le_pow_right (by norm_num) (by omega)
  have hq2 : 2 ≤ 2 ^ (bits - bits / 2 - 1) := by
    calc (2 : Nat) = 2 ^ 1 := rfl
    _ ≤ 2 ^ (bits - bits / 2 - 1) := Nat.pow_le_pow_right (by norm_num) (by omega)
  have hphi : 1 < (t.p - 1) * (t.q - 1) := by
    have h1 : 2 ≤ t.p - 1 := by omega
    have h2 : 2 ≤ t.q - 1 := by omega
    calc 1 < 2 * 2 := by norm_num
    _ ≤ (t.p - 1) * (t.q - 1) := Nat.mul_le_mul h1 h2
  obtain ⟨hd1, hd2, _⟩ := invMod_spec hphi hg
  exact ⟨hnbig, hp, hq, hn, hg, hd ▸ hd1, hd ▸ hd2⟩

theorem pow_one_add_mul_prime_sub_one {p : Nat} (hp : p.Prime) (m s : Nat) :
    m ^ (1 + s * (p - 1)) ≡ m [MOD p] := by
  haveI := Fact.mk hp
  rw [← ZMod.natCast_eq_natCast_iff]
  push_cast
  by_cases hm : (m : ZMod p) = 0
  · rw [hm, zero_pow (by omega : 1 + s * (p - 1) ≠ 0)]
  · rw [pow_add, pow_one, mul_comm s (p - 1), pow_mul,
      ZMod.pow_card_sub_one_eq_one hm, one_pow, mul_one]

theorem rsa_correct {p q : Nat} (hp : p.Prime) (hq : q.Prime) (hpq : p ≠ q)
    {e d : Nat} (hed : (e * d) % ((p - 1) * (q - 1)) = 1) (m : Nat) :
    m ^ (e * d) ≡ m [MOD p * q] := by
  have hco : Nat.Coprime p q := (Nat.coprime_primes hp hq).mpr hpq
  rw [← Nat.modEq_and_modEq_iff_modEq_mul hco]
  have hsplit : e * d = 1 + ((p - 1) * (q - 1)) * (e * d / ((p - 1) * (q - 1))) := by
    have := Nat.div_add_mod (e * d) ((p - 1) * (q - 1))
    omega
  constructor
  · rw [hsplit, show ((p - 1) * (q - 1)) * (e * d / ((p - 1) * (q - 1))) =
      ((e * d / ((p - 1) * (q - 1))) * (q - 1)) * (p - 1) by ring]
    exact pow_one_add_mul_prime_sub_one hp m _
  · rw [hsplit, show ((p - 1) * (q - 1)) * (e * d / ((p - 1) * (q - 1))) =
      ((e * d / ((p - 1) * (q - 1))) * (p - 1)) * (q - 1) by ring]
    exact pow_one_add_mul_prime_sub_one hq m _

/-- C6: for every key rsa_keygen(bits >= 512) returns and every integer m
with 0 <= m < n, decrypt(encrypt(m)) = m; encrypt returns m^e mod n and
decrypt returns c^d mod n, and both reject exactly the arguments outside
[0, n). -/
theorem rsa_encrypt_decrypt_roundtrip (bits : Nat) (stream : Nat → Nat) (fuel : Nat)
    (t : KeygenTrace) (hbits : 512 ≤ bits)
    (hkg : rsa_keygen_full bits stream fuel = some t) :
    (∀ m : Nat, m < t.n →
      (rsa_encrypt (m : Int) ⟨t.n, t.e, t.d⟩).bind
        (fun c => rsa_decrypt c ⟨t.n, t.e, t.d⟩) = some (m : Int)) ∧
    (∀ m : Nat, m < t.n →
      rsa_encrypt (m : Int) ⟨t.n, t.e, t.d⟩ = some ((m ^ t.e % t.n : Nat) : Int)) ∧
    (∀ c : Nat, c < t.n →
      rsa_decrypt (c : Int) ⟨t.n, t.e, t.d⟩ = some ((c ^ t.d % t.n : Nat) : Int)) ∧
    (∀ m : Int, rsa_encrypt m ⟨t.n, t.e, t.d⟩ = none ↔ m < 0 ∨ (t.n : Int) ≤ m) ∧
    (∀ c : Int, rsa_decrypt c ⟨t.n, t.e, t.d⟩ = none ↔ c < 0 ∨ (t.n : Int) ≤ c) := by
  obtain ⟨hb, hp, hq, hpq, hpge, hqge, hn, hg, hd⟩ := rsa_keygen_full_inv hkg
  have hnpos : 0 < t.n := by
    rw [hn]
    exact Nat.mul_pos hp.pos hq.pos
  have hp2 : 2 ≤ 2 ^ (bits / 2 - 1) := by
    calc (2 : Nat) = 2 ^ 1 := rfl
    _ ≤ 2 ^ (bits / 2 - 1) := Nat.pow_le_pow_right (by norm_num) (by omega)
  have hq2 : 2 ≤ 2 ^ (bits - bits / 2 - 1) := by
    calc (2 : Nat) = 2 ^ 1 := rfl
    _ ≤ 2 ^ (bits - bits / 2 - 1) := Nat.pow_le_pow_right (by norm_num) (by omega)
  have hphi : 1 < (t.p - 1) * (t.q - 1) := by
    have h1 : 2 ≤ t.p - 1 := by omega
    have h2 : 2 ≤ t.q - 1 := by omega
    calc 1 < 2 * 2 := by norm_num
    _ ≤ (t.p - 1) * (t.q - 1) := Nat.mul_le_mul h1 h2
  have hed : (t.e * t.d) % ((t.p - 1) * (t.q - 1)) = 1 := by
    obtain ⟨_, _, h3⟩ := invMod_spec hphi hg
    rw [hd]
    exact h3
  have henc : ∀ m : Nat, m < t.n → rsa_encrypt (m : Int) ⟨t.n, t.e, t.d⟩ =
      some ((m ^ t.e % t.n : Nat) : Int) := by
    intro m hm
    rw [rsa_encrypt, if_neg (by simp), if_neg (by
      simp only [not_le]
      exact_mod_cast hm), Int.toNat_natCast]
  have hdec : ∀ c : Nat, c < t.n → rsa_decrypt (c : Int) ⟨t.n, t.e, t.d⟩ =
      some ((c ^ t.d % t.n : Nat) : Int) := by
    intro c hc
    rw [rsa_decrypt, if_neg (by simp), if_neg (by
      simp only [not_le]
      exact_mod_cast hc), Int.toNat_natCast]
  refine ⟨?_, henc, hdec, ?_, ?_⟩
  · intro m hm
    rw [henc m hm]
    show rsa_decrypt ((m ^ t.e % t.n : Nat) : Int) ⟨t.n, t.e, t.d⟩ = some (m : Int)
    rw [hdec _ (Nat.mod_lt _ hnpos)]
    congr 1
    have hkey : (m ^ t.e % t.n) ^ t.d % t.n = m := by
      rw [← Nat.pow_mod, ← pow_mul]
      have hmodeq := rsa_correct hp hq hpq hed m
      rw [hn]
      rw [hn] at hm
      unfold Nat.ModEq at hmodeq
      rw [hmodeq, Nat.mod_eq_of_lt hm]
    rw [hkey]
  · intro m
    rw [rsa_encrypt]
    dsimp only
    split_ifs with h1 h2 <;> simp <;> omega
  · intro c
    rw [rsa_decrypt]
    dsimp only
    split_ifs with h1 h2 <;> simp <;> omega

/-! ### Concrete keygen runs

A Lucas certificate turns the fast-exponentiation checks into primality of
the 128-bit and 256-bit Proth primes used to instantiate concrete PRNG
outcomes of rsa_keygen. -/

theorem prime_of_pow_mul (k m p a : Nat) (hk : k.Prime) (hm : 0 < m)
    (hpk : p = k * 2 ^ m + 1)
    (h1 : powMod a (p - 1) p = 1)
    (h2 : powMod a ((p - 1) / 2) p ≠ 1)
    (h3 : powMod a ((p - 1) / k) p ≠ 1) : p.Prime := by
  have h2m : 2 ≤ 2 ^ m := by
    calc (2 : Nat) = 2 ^ 1 := rfl
    _ ≤ 2 ^ m := Nat.pow_le_pow_right (by norm_num) (by omega)
  have hp1 : 1 < p := by
    have hk2 := hk.two_le
    have h4 : 4 ≤ k * 2 ^ m := by
      calc 4 = 2 * 2 := rfl
      _ ≤ k * 2 ^ m := Nat.mul_le_mul hk2 h2m
    omega
  haveI : Fact (1 < p) := ⟨hp1⟩
  haveI : NeZero p := ⟨by omega⟩
  have hppos : 0 < p := by omega
  have hcast : ∀ n : Nat, ((powMod a n p : Nat) : ZMod p) = (a : ZMod p) ^ n := by
    intro n
    rw [powMod_eq a n p hppos, ZMod.natCast_mod]
    push_cast
    rfl
  have hval : ∀ n : Nat, (a : ZMod p) ^ n = 1 → powMod a n p = 1 := by
    intro n h
    have hcast2 : ((powMod a n p : Nat) : ZMod p) = 1 := by rw [hcast n, h]
    have hv := congrArg ZMod.val hcast2
    rw [ZMod.val_cast_of_lt (powMod_lt a n p hppos), ZMod.val_one] at hv
    exact hv
  apply lucas_primality p (a : ZMod p)
  · have hc := hcast (p - 1)
    rw [h1] at hc
    rw [← hc]
    simp
  · intro r hr hdvd
    have hdvd2 : r ∣ k * 2 ^ m := by
      have hsub : p - 1 = k * 2 ^ m := by omega
      rwa [hsub] at hdvd
    have hr2 : r = k ∨ r = 2 := by
      rcases (Nat.Prime.dvd_mul hr).mp hdvd2 with h | h
      · exact Or.inl ((Nat.prime_dvd_prime_iff_eq hr hk).mp h)
      · exact Or.inr ((Nat.prime_dvd_prime_iff_eq hr Nat.prime_two).mp
          (hr.dvd_of_dvd_pow h))
    intro hcon
    rcases hr2 with h | h
    · subst h
      exact h3 (hval _ hcon)
    · subst h
      exact h2 (hval _ hcon)

def cexP : Nat := 33331 * 2 ^ 112 + 1

def cexQ : Nat := 34483 * 2 ^ 112 + 1

/-- A PRNG outcome for rsa_keygen(256): the first draw makes the p-candidate
cexP - 1 (so p = cexP), the second makes the q-candidate cexQ - 1. -/
def cexStream : Nat → Nat := fun i => if i = 0 then cexP - 1 else cexQ - 1

theorem cexP_prime : Nat.Prime cexP :=
  prime_of_pow_mul 33331 112 cexP 3
    (@prime_of_noDiv_sqrt 33331 256 (by norm_num) (by decide)
      (by rw [Nat.sqrt_lt]; norm_num))
    (by norm_num) rfl (by decide) (by decide) (by decide)

theorem cexQ_prime : Nat.Prime cexQ :=
  prime_of_pow_mul 34483 112 cexQ 3
    (@prime_of_noDiv_sqrt 34483 256 (by norm_num) (by decide)
      (by rw [Nat.sqrt_lt]; norm_num))
    (by norm_num) rfl (by decide) (by decide) (by decide)

theorem pickQ_one (stream : Nat → Nat) (p half q idx : Nat)
    (hq : next_prime_of_bits (stream idx) half = q) (hne : p ≠ q) :
    pickQ stream p half 1 idx = some (q, idx + 1) := by
  simp only [pickQ]
  rw [hq, if_neg hne]

theorem rsa_keygen_full_eval (bits fuel : Nat) (stream : Nat → Nat) (p q idx : Nat)
    (hb : ¬ bits < 256)
    (hp : next_prime_of_bits (stream 0) (bits / 2) = p)
    (hq : pickQ stream p (bits - bits / 2) fuel 1 = some (q, idx))
    (hg : Nat.gcd 65537 ((p - 1) * (q - 1)) = 1) :
    rsa_keygen_full bits stream fuel =
      some ⟨p, q, p * q, 65537, invMod 65537 ((p - 1) * (q - 1))⟩ := by
  simp only [rsa_keygen_full]
  rw [if_neg hb, hp, hq]
  dsimp only
  rw [if_pos hg]
  dsimp only
  rw [if_pos hg]

theorem rsa_keygen_full_cex :
    rsa_keygen_full 256 cexStream 1 =
      some ⟨cexP, cexQ, cexP * cexQ, 65537, invMod 65537 ((cexP - 1) * (cexQ - 1))⟩ := by
  have hrb0 : random_bits (cexStream 0) 128 = cexP - 1 := by decide
  have hrb1 : random_bits (cexStream 1) 128 = cexQ - 1 := by decide
  have heP : cexP - 1 + 1 = cexP := by decide
  have heQ : cexQ - 1 + 1 = cexQ := by decide
  have hnp0 : nextPrime (cexP - 1) = cexP := by
    rw [nextPrime_of_prime_succ (by rw [heP]; exact cexP_prime), heP]
  have hnp1 : nextPrime (cexQ - 1) = cexQ := by
    rw [nextPrime_of_prime_succ (by rw [heQ]; exact cexQ_prime), heQ]
  exact rsa_keygen_full_eval 256 1 cexStream cexP cexQ 2 (by norm_num)
    (by rw [show (256 : Nat) / 2 = 128 from rfl, next_prime_of_bits, hrb0, hnp0])
    (by rw [show (256 : Nat) - 256 / 2 = 128 from rfl,
          pickQ_one cexStream cexP 128 cexQ 1
            (by rw [next_prime_of_bits, hrb1, hnp1]) (by decide)])
    (by decide)

/-- Counterexample to C5 as stated: with bits = 256 and the PRNG outcome
cexStream, rsa_keygen succeeds and returns n = cexP * cexQ, which is
smaller than 2^(bits-1) = 2^255. -/
theorem rsa_keygen_n_below_half_bound :
    rsa_keygen_full 256 cexStream 1 =
      some ⟨cexP, cexQ, cexP * cexQ, 65537, invMod 65537 ((cexP - 1) * (cexQ - 1))⟩ ∧
    cexP * cexQ < 2 ^ (256 - 1) :=
  ⟨rsa_keygen_full_cex, by decide⟩

/-- Witness for the amended C5 at the concrete 256-bit keygen run. -/
theorem rsa_keygen_invariants_witness :
    2 ^ (256 - 2) < cexP * cexQ ∧ Nat.Prime cexP ∧ Nat.Prime cexQ ∧
    cexP * cexQ = cexP * cexQ ∧
    Nat.gcd 65537 ((cexP - 1) * (cexQ - 1)) = 1 ∧
    0 < invMod 65537 ((cexP - 1) * (cexQ - 1)) ∧
    invMod 65537 ((cexP - 1) * (cexQ - 1)) < (cexP - 1) * (cexQ - 1) :=
  rsa_keygen_invariants 256 cexStream 1
    ⟨cexP, cexQ, cexP * cexQ, 65537, invMod 65537 ((cexP - 1) * (cexQ - 1))⟩
    rsa_keygen_full_cex

def w512P : Nat := 33577 * 2 ^ 240 + 1

def w512Q : Nat := 35527 * 2 ^ 240 + 1

/-- A PRNG outcome for rsa_keygen(512): the draws make p = w512P, q = w512Q. -/
def w512Stream : Nat → Nat := fun i => if i = 0 then w512P - 1 else w512Q - 1

theorem w512P_prime : Nat.Prime w512P :=
  prime_of_pow_mul 33577 240 w512P 3
    (@prime_of_noDiv_sqrt 33577 256 (by norm_num) (by decide)
      (by rw [Nat.sqrt_lt]; norm_num))
    (by norm_num) rfl (by decide) (by decide) (by decide)

theorem w512Q_prime : Nat.Prime w512Q :=
  prime_of_pow_mul 35527 240 w512Q 3
    (@prime_of_noDiv_sqrt 35527 256 (by norm_num) (by decide)
      (by rw [Nat.sqrt_lt]; norm_num))
    (by norm_num) rfl (by decide) (by decide) (by decide)

theorem rsa_keygen_full_w512 :
    rsa_keygen_full 512 w512Stream 1 =
      some ⟨w512P, w512Q, w512P * w512Q, 65537,
        invMod 65537 ((w512P - 1) * (w512Q - 1))⟩ := by
  have hrb0 : random_bits (w512Stream 0) 256 = w512P - 1 := by decide
  have hrb1 : random_bits (w512Stream 1) 256 = w512Q - 1 := by decide
  have heP : w512P - 1 + 1 = w512P := by decide
  have heQ : w512Q - 1 + 1 = w512Q := by decide
  have hnp0 : nextPrime (w512P - 1) = w512P := by
    rw [nextPrime_of_prime_succ (by rw [heP]; exact w512P_prime), heP]
  have hnp1 : nextPrime (w512Q - 1) = w512Q := by
    rw [nextPrime_of_prime_succ (by rw [heQ]; exact w512Q_prime), heQ]
  exact rsa_keygen_full_eval 512 1 w512Stream w512P w512Q 2 (by norm_num)
    (by rw [show (512 : Nat) / 2 = 256 from rfl, next_prime_of_bits, hrb0, hnp0])
    (by rw [show (512 : Nat) - 512 / 2 = 256 from rfl,
          pickQ_one w512Stream w512P 256 w512Q 1
            (by rw [next_prime_of_bits, hrb1, hnp1]) (by decide)])
    (by decide)

/-- Witness for C6 at a concrete 512-bit keygen run. -/
theorem rsa_encrypt_decrypt_roundtrip_witness :
    (∀ m : Nat, m < w512P * w512Q →
      (rsa_encrypt (m : Int)
          ⟨w512P * w512Q, 65537, invMod 65537 ((w512P - 1) * (w512Q - 1))⟩).bind
        (fun c => rsa_decrypt c
          ⟨w512P * w512Q, 65537, invMod 65537 ((w512P - 1) * (w512Q - 1))⟩) =
        some (m : Int)) ∧
    (∀ m : Nat, m < w512P * w512Q →
      rsa_encrypt (m : Int)
          ⟨w512P * w512Q, 65537, invMod 65537 ((w512P - 1) * (w512Q - 1))⟩ =
        some ((m ^ 65537 % (w512P * w512Q) : Nat) : Int)) ∧
    (∀ c : Nat, c < w512P * w512Q →
      rsa_decrypt (c : Int)
          ⟨w512P * w512Q, 65537, invMod 65537 ((w512P - 1) * (w512Q - 1))⟩ =
        some ((c ^ invMod 65537 ((w512P - 1) * (w512Q - 1)) % (w512P * w512Q) : Nat) :
          Int)) ∧
    (∀ m : Int, rsa_encrypt m
        ⟨w512P * w512Q, 65537, invMod 65537 ((w512P - 1) * (w512Q - 1))⟩ = none ↔
      m < 0 ∨ ((w512P * w512Q : Nat) : Int) ≤ m) ∧
    (∀ c : Int, rsa_decrypt c
        ⟨w512P * w512Q, 65537, invMod 65537 ((w512P - 1) * (w512Q - 1))⟩ = none ↔
      c < 0 ∨ ((w512P * w512Q : Nat) : Int) ≤ c) :=
  rsa_encrypt_decrypt_roundtrip 512 w512Stream 1
    ⟨w512P, w512Q, w512P * w512Q, 65537, invMod 65537 ((w512P - 1) * (w512Q - 1))⟩
    (by norm_num) rsa_keygen_full_w512
